import Mathlib

set_option maxRecDepth 100000

/-!
Shallow embedding of `src/index.ts`: a binary struct codec with two builder
strategies.

* `BinaryStructBuilderV1` synthesises the bodies of `read`/`write` with
  `new Function()` at build time (strategy A).  We model the synthesised code
  as a list of lines, one per field access, produced at build time from the
  builder's `fieldMap`/`fields`, and an interpreter that runs those lines.
* `BinaryStructBuilderV2` builds a table of per-field closures bound to their
  offset and byte order (strategy B).

Buffers (`ArrayBuffer`/`DataView`) are byte lists.  JavaScript numbers are
modelled by `JSNum`: finite doubles are rationals, plus NaN and the two
infinities; a missing record field (`undefined`) is `Option.none`.  The
`DataView` accessors follow the ECMAScript specification: bounds-checked
access (`Option.none` models the thrown `RangeError`), `ToUint8/16/32`
coercion on integer writes (NaN, infinities and `undefined` coerce to `0`),
and IEEE-754 binary32 round-to-nearest-even on `setFloat32`.
-/

namespace BinStruct

/-- The scalar field types (`FieldType` in `src/index.ts`). -/
inductive FieldType
  | uint8
  | uint16
  | uint32
  | float32
deriving DecidableEq

/-- A JavaScript number as far as the codec observes it: a finite double
(modelled as a rational), NaN, or one of the infinities.  The negative zero
produced by `getFloat32` is identified with `0` (they are `==`-equal in JS). -/
inductive JSNum
  | num (q : ℚ)
  | nan
  | inf
  | neginf
deriving DecidableEq

/-- An `ArrayBuffer` (equivalently a `DataView` over a whole buffer):
a list of bytes. -/
abbrev Buf := List Nat

/-- Bounds-checked read of `n` bytes at offset `off`; `none` models the
`RangeError` that a `DataView` getter throws on an out-of-range access. -/
def readBytesAt (buf : Buf) (off n : Nat) : Option (List Nat) :=
  if off + n ≤ buf.length then some ((buf.drop off).take n) else none

/-- Bounds-checked in-place overwrite of the bytes `bs` at offset `off`;
`none` models the `RangeError` thrown by a `DataView` setter. -/
def writeBytesAt (buf : Buf) (off : Nat) (bs : List Nat) : Option Buf :=
  if off + bs.length ≤ buf.length then
    some (buf.take off ++ bs ++ buf.drop (off + bs.length))
  else none

/-- The `w` little-endian bytes of `v` (least significant first). -/
def natToBytesLE : Nat → Nat → List Nat
  | 0, _ => []
  | w + 1, v => v % 256 :: natToBytesLE w (v / 256)

/-- Reassemble a little-endian byte list into a natural number. -/
def bytesToNatLE : List Nat → Nat
  | [] => 0
  | b :: bs => b + 256 * bytesToNatLE bs

/-- Multi-byte values are stored least-significant-byte first when
`littleEndian` and reversed otherwise. -/
def orderBytes (littleEndian : Bool) (bs : List Nat) : List Nat :=
  if littleEndian then bs else bs.reverse

/-- ECMAScript `truncate`: round a finite number toward zero
(`Int.div` is T-division). -/
def jsTrunc (q : ℚ) : Int := Int.tdiv q.num q.den

/-- ECMAScript `ToUint(2^bits)` as used by the integer `DataView` setters:
NaN, the infinities, and `undefined` (a missing field, which `ToNumber`
sends to NaN) all coerce to `0`; a finite value is truncated toward zero and
reduced modulo `2^bits`. -/
def toUintBits (bits : Nat) : Option JSNum → Nat
  | some (.num q) => ((jsTrunc q).emod ((2 : Int) ^ bits)).toNat
  | _ => 0

/-- Fuel-driven base-2 logarithm (floor).  Structural recursion keeps it
kernel-computable. -/
def log2fuel : Nat → Nat → Nat
  | 0, _ => 0
  | f + 1, n => if 2 ≤ n then log2fuel f (n / 2) + 1 else 0

/-- `⌊log2 n⌋` for `n ≥ 1`.  The fuel `2000` covers every `n < 2^2000`, far
beyond the numerators and denominators of IEEE-754 doubles. -/
def natLog2 (n : Nat) : Nat := log2fuel 2000 n

/-- Decide `n / d < 2^k` over the integers (`d > 0`). -/
def ltPow2 (n d : Nat) (k : Int) : Bool :=
  if 0 ≤ k then n < d * 2 ^ k.toNat else n * 2 ^ (-k).toNat < d

/-- `⌊log2 (n/d)⌋` for `n, d ≥ 1`: the candidate `log2 n - log2 d` is exact or
one too large, so one comparison fixes it up. -/
def floorLog2Frac (n d : Nat) : Int :=
  let g : Int := (natLog2 n : Int) - (natLog2 d : Int)
  if ltPow2 n d g then g - 1 else g

/-- Round `n / d` (with `d > 0`) to the nearest integer, ties to even. -/
def roundHalfEvenFrac (n d : Int) : Int :=
  let f := n.fdiv d
  let r := n - f * d
  if 2 * r < d then f
  else if d < 2 * r then f + 1
  else if f % 2 = 0 then f else f + 1

/-- Round `|q| * 2^sh` (for `q ≠ 0`) to the nearest integer, ties to even,
working on the numerator and denominator directly. -/
def roundScaled (q : ℚ) (sh : Int) : Nat :=
  (if 0 ≤ sh then roundHalfEvenFrac ((q.num.natAbs : Int) * 2 ^ sh.toNat) q.den
   else roundHalfEvenFrac q.num.natAbs ((q.den : Int) * 2 ^ (-sh).toNat)).toNat

/-- IEEE-754 binary32 encoding of a finite value with round-to-nearest-even,
as performed by `DataView.prototype.setFloat32` (the stored double is first
rounded to single precision).  Overflow produces the infinity bit patterns. -/
def ratToF32Bits (q : ℚ) : Nat :=
  if q = 0 then 0
  else
    let s : Nat := if q < 0 then 1 else 0
    let e : Int := floorLog2Frac q.num.natAbs q.den
    if e < -126 then
      -- subnormal range: the grid has spacing 2^(-149)
      let k := roundScaled q 149
      if k < 2 ^ 23 then s * 2 ^ 31 + k
      else s * 2 ^ 31 + 2 ^ 23        -- rounded up to the smallest normal
    else if 127 < e then s * 2 ^ 31 + 255 * 2 ^ 23
    else
      let m := roundScaled q (23 - e)
      if m < 2 ^ 24 then s * 2 ^ 31 + (e + 127).toNat * 2 ^ 23 + (m - 2 ^ 23)
      else if e = 127 then s * 2 ^ 31 + 255 * 2 ^ 23
      else s * 2 ^ 31 + (e + 128).toNat * 2 ^ 23

/-- The rational `n / 2^k`, in kernel-computable form. -/
def dyadic (n : Int) (k : Nat) : ℚ := mkRat n (2 ^ k)

/-- Decoding of an IEEE-754 binary32 bit pattern, as performed by
`DataView.prototype.getFloat32` (the single-precision value widens to a
double exactly). -/
def f32BitsToJSNum (bits : Nat) : JSNum :=
  let s : Nat := bits / 2 ^ 31 % 2
  let ex : Nat := bits / 2 ^ 23 % 2 ^ 8
  let m : Nat := bits % 2 ^ 23
  let sgn : Int := if s = 1 then -1 else 1
  if ex = 255 then
    if m = 0 then (if s = 1 then .neginf else .inf) else .nan
  else if ex = 0 then .num (dyadic (sgn * (m : Int)) 149)
  else .num (dyadic (sgn * ((2 ^ 23 + m : Nat) : Int) * (2 : Int) ^ (ex - 1)) 149)

/-- The quiet-NaN bit pattern `setFloat32` stores for NaN (and hence for an
`undefined` field value, which `ToNumber` sends to NaN). -/
def f32NanBits : Nat := 0x7FC00000

/-- The bit pattern `setFloat32` stores for a given value. -/
def jsNumToF32Bits : Option JSNum → Nat
  | some (.num q) => ratToF32Bits q
  | some .inf => 0x7F800000
  | some .neginf => 0xFF800000
  | _ => f32NanBits

/-! ### The DataView accessors used by the two builders -/

/-- `view.getUint8(off)`: a one-byte read (byte order is irrelevant). -/
def getUint8V (buf : Buf) (off : Nat) : Option JSNum :=
  (readBytesAt buf off 1).map fun bs => .num ((bytesToNatLE bs : ℕ) : ℚ)

/-- `view.getUint16(off, littleEndian)`. -/
def getUint16V (buf : Buf) (off : Nat) (le : Bool) : Option JSNum :=
  (readBytesAt buf off 2).map fun bs =>
    .num ((bytesToNatLE (orderBytes le bs) : ℕ) : ℚ)

/-- `view.getUint32(off, littleEndian)`. -/
def getUint32V (buf : Buf) (off : Nat) (le : Bool) : Option JSNum :=
  (readBytesAt buf off 4).map fun bs =>
    .num ((bytesToNatLE (orderBytes le bs) : ℕ) : ℚ)

/-- `view.getFloat32(off, littleEndian)`. -/
def getFloat32V (buf : Buf) (off : Nat) (le : Bool) : Option JSNum :=
  (readBytesAt buf off 4).map fun bs =>
    f32BitsToJSNum (bytesToNatLE (orderBytes le bs))

/-- `view.setUint8(off, v)`. -/
def setUint8V (buf : Buf) (off : Nat) (v : Option JSNum) : Option Buf :=
  writeBytesAt buf off [toUintBits 8 v]

/-- `view.setUint16(off, v, littleEndian)`. -/
def setUint16V (buf : Buf) (off : Nat) (v : Option JSNum) (le : Bool) : Option Buf :=
  writeBytesAt buf off (orderBytes le (natToBytesLE 2 (toUintBits 16 v)))

/-- `view.setUint32(off, v, littleEndian)`. -/
def setUint32V (buf : Buf) (off : Nat) (v : Option JSNum) (le : Bool) : Option Buf :=
  writeBytesAt buf off (orderBytes le (natToBytesLE 4 (toUintBits 32 v)))

/-- `view.setFloat32(off, v, littleEndian)`. -/
def setFloat32V (buf : Buf) (off : Nat) (v : Option JSNum) (le : Bool) : Option Buf :=
  writeBytesAt buf off (orderBytes le (natToBytesLE 4 (jsNumToF32Bits v)))

/-! ### JavaScript records (plain objects with numeric fields) -/

/-- A JS record: the insertion-ordered own properties of a plain object. -/
abbrev RecordJS := List (String × JSNum)

/-- Property lookup `data.name`; `none` models `undefined` (a missing field). -/
def jsGet (r : RecordJS) (n : String) : Option JSNum :=
  (r.find? fun p => p.1 == n).map fun p => p.2

/-- Property assignment `r[k] = v`: overwrites the value in place when the key
exists, otherwise appends (JS own-property insertion order). -/
def jsSet (r : RecordJS) (k : String) (v : JSNum) : RecordJS :=
  if r.any (fun p => p.1 == k) then
    r.map fun p => if p.1 == k then (k, v) else p
  else r ++ [(k, v)]

/-- The codec surface returned by `build`: `{ size, read, write }`.
`read` throws (`none`) on an out-of-range access; `write` takes an optional
target buffer (`none` allocates a fresh zero-filled buffer of `size` bytes)
and throws (`none`) on an out-of-range access. -/
structure Codec where
  size : Nat
  read : Buf → Option RecordJS
  write : RecordJS → Option Buf → Option Buf

/-! ### `BinaryStructBuilderV1` (strategy A, `new Function()` synthesis) -/

/-- One entry of V1's private `fields` array. -/
structure FieldV1 where
  offset : Nat
  size : Nat
  getter : String
  setter : String
deriving DecidableEq

/-- The builder's private state: running `size`, the `fields` array, the
`fieldMap` (a JS `Map`, insertion-ordered) from names to indices into
`fields`, and the byte order fixed at construction. -/
structure StateV1 where
  size : Nat
  fields : List FieldV1
  fieldMap : List (String × Nat)
  littleEndian : Bool
deriving DecidableEq

/-- `new BinaryStructBuilderV1(littleEndian)`. -/
def StateV1.init (littleEndian : Bool) : StateV1 :=
  { size := 0, fields := [], fieldMap := [], littleEndian := littleEndian }

/-- `Map.prototype.set`: update the value in place when the key exists
(keeping its insertion position), otherwise append. -/
def mapSet (m : List (String × Nat)) (k : String) (v : Nat) : List (String × Nat) :=
  if m.any (fun p => p.1 == k) then
    m.map fun p => if p.1 == k then (k, v) else p
  else m ++ [(k, v)]

/-- V1's private `allocField`: pick size and accessor names by type, assign
the current total size as offset, and bump the total size. -/
def StateV1.allocField (s : StateV1) (t : FieldType) : FieldV1 × StateV1 :=
  let offset := s.size
  let (size, getter, setter) : Nat × String × String :=
    match t with
    | .uint8 => (1, "getUint8", "setUint8")
    | .uint16 => (2, "getUint16", "setUint16")
    | .uint32 => (4, "getUint32", "setUint32")
    | .float32 => (4, "getFloat32", "setFloat32")
  (⟨offset, size, getter, setter⟩, { s with size := s.size + size })

/-- V1's `addField`: push the allocated field and point `fieldMap[name]` at
its index.  Note there is no duplicate check: an existing entry is silently
re-pointed at the new field. -/
def StateV1.addField (s : StateV1) (name : String) (t : FieldType) : StateV1 :=
  let (field, s1) := s.allocField t
  let fields1 := s1.fields ++ [field]
  { s1 with
      fields := fields1
      fieldMap := mapSet s1.fieldMap name (fields1.length - 1) }

/-- One line `name: view.<getter>(offset, littleEndian)` of the object
literal in the synthesised `readFn` body. -/
structure ReadLineV1 where
  name : String
  getter : String
  offset : Nat
deriving DecidableEq

/-- One statement `view.<setter>(offset, data.<name>, littleEndian);` of the
synthesised `writeFn` body. -/
structure WriteLineV1 where
  name : String
  setter : String
  offset : Nat
deriving DecidableEq

/-- First character of a plain ASCII JavaScript identifier (`IdentifierStart`
restricted to the ASCII alphabet, which covers every name this repository
declares). -/
def jsIdentStart (c : Char) : Bool :=
  c.isAlpha || c == '_' || c == '$'

/-- Subsequent characters of a plain ASCII JavaScript identifier. -/
def jsIdentRest (c : Char) : Bool :=
  jsIdentStart c || c.isDigit

/-- A plain ASCII JavaScript `IdentifierName`.  The synthesised function
bodies splice every field name in verbatim, so whether `new Function` parses
depends on the name's shape.  (Reserved words need no special case: since ES5
they are legal both as object-literal property keys and after `data.`.) -/
def isJSIdentifier (s : String) : Bool :=
  match s.data with
  | [] => false
  | c :: cs => jsIdentStart c && cs.all jsIdentRest

/-- Property-key positions of the synthesised `readFn` object literal accept,
besides identifiers, numeric-literal keys: an all-digit name such as `"0"`
still parses there (only the digit strings of JS numeric literals are
modelled, which is exact at `build` level since `writeFn` rejects every
non-identifier anyway). -/
def validReadKey (s : String) : Bool :=
  isJSIdentifier s || (!s.data.isEmpty && s.data.all Char.isDigit)

/-- The per-field content of the synthesised `readFn` body: one line from each
`fieldMap` entry; `fields[index]` on an out-of-range index would make the
synthesis itself throw, modelled as `none`. -/
def synthReadCore (s : StateV1) : Option (List ReadLineV1) :=
  s.fieldMap.mapM fun p => (s.fields[p.2]?).map fun f => ⟨p.1, f.getter, f.offset⟩

/-- Build-time synthesis of the `readFn` body.  `new Function` parses the
assembled source as a whole before anything runs: a field name that is not a
valid property key (e.g. `"a b"`) makes it throw a `SyntaxError`, modelled as
`none`; nothing in the builder validates names beforehand. -/
def synthReadV1 (s : StateV1) : Option (List ReadLineV1) :=
  if s.fieldMap.all (fun p => validReadKey p.1) then synthReadCore s else none

/-- The per-field content of the synthesised `writeFn` body. -/
def synthWriteCore (s : StateV1) : Option (List WriteLineV1) :=
  s.fieldMap.mapM fun p => (s.fields[p.2]?).map fun f => ⟨p.1, f.setter, f.offset⟩

/-- Build-time synthesis of the `writeFn` body.  Each statement accesses
`data.<name>`, a member-access position that accepts only `IdentifierName`:
any other name (`"a b"`, and also all-digit names like `"0"` that the read
body tolerates) makes `new Function` throw a `SyntaxError`, modelled as
`none`. -/
def synthWriteV1 (s : StateV1) : Option (List WriteLineV1) :=
  if s.fieldMap.all (fun p => isJSIdentifier p.1) then synthWriteCore s else none

/-- Dispatch `view.<getter>(offset, littleEndian)` on the method name
embedded in the synthesised code.  (`getUint8` ignores the extra byte-order
argument, as JS ignores surplus arguments.) -/
def applyGetter (g : String) (buf : Buf) (off : Nat) (le : Bool) : Option JSNum :=
  if g == "getUint8" then getUint8V buf off
  else if g == "getUint16" then getUint16V buf off le
  else if g == "getUint32" then getUint32V buf off le
  else if g == "getFloat32" then getFloat32V buf off le
  else none

/-- Dispatch `view.<setter>(offset, value, littleEndian)` on the method name
embedded in the synthesised code. -/
def applySetter (st : String) (buf : Buf) (off : Nat) (v : Option JSNum)
    (le : Bool) : Option Buf :=
  if st == "setUint8" then setUint8V buf off v
  else if st == "setUint16" then setUint16V buf off v le
  else if st == "setUint32" then setUint32V buf off v le
  else if st == "setFloat32" then setFloat32V buf off v le
  else none

/-- Run the synthesised `readFn`: evaluate the object literal's properties in
order; any `RangeError` aborts the whole call. -/
def runReadV1 (lines : List ReadLineV1) (le : Bool) (buf : Buf) : Option RecordJS :=
  lines.foldlM (fun r l => (applyGetter l.getter buf l.offset le).map (jsSet r l.name)) []

/-- Run the synthesised `writeFn`: writes go to the supplied buffer, or to a
fresh zero-filled buffer of `structSize` bytes when none is supplied. -/
def runWriteV1 (structSize : Nat) (lines : List WriteLineV1) (le : Bool)
    (data : RecordJS) (buffer : Option Buf) : Option Buf :=
  let v0 : Buf :=
    match buffer with
    | some b => b
    | none => List.replicate structSize 0
  lines.foldlM (fun b l => applySetter l.setter b l.offset (jsGet data l.name) le) v0

/-- V1's `build`: snapshot `size` and synthesise `readFn`/`writeFn` from the
current `fieldMap` and `fields`.  The synthesised code embeds every name,
method and offset as a literal, so the returned codec is insensitive to later
builder mutation. -/
def StateV1.build (s : StateV1) : Option Codec :=
  (synthReadV1 s).bind fun rl =>
    (synthWriteV1 s).map fun wl =>
      { size := s.size
        read := runReadV1 rl s.littleEndian
        write := runWriteV1 s.size wl s.littleEndian }

/-! ### `BinaryStructBuilderV2` (strategy B, closure table) -/

/-- One entry of V2's private `fields` array: the per-field read and write
closures are bound to their offset and byte order at `allocField` time. -/
structure FieldV2 where
  name : String
  offset : Nat
  size : Nat
  read : Buf → Option JSNum
  write : Buf → Option JSNum → Option Buf

/-- V2's private state.  (`littleEndian` is read by the closures through
`this`, but it is set in the constructor and never written again, so
capturing its value is equivalent.) -/
structure StateV2 where
  size : Nat
  fields : List FieldV2
  littleEndian : Bool

/-- `new BinaryStructBuilderV2(littleEndian)`. -/
def StateV2.init (littleEndian : Bool) : StateV2 :=
  { size := 0, fields := [], littleEndian := littleEndian }

/-- V2's private `allocField`: build the closures for the field's type, bind
them to the assigned offset, bump the size and push the field. -/
def StateV2.allocField (s : StateV2) (name : String) (t : FieldType) : StateV2 :=
  let offset := s.size
  let (size, read, write) :
      Nat × (Buf → Option JSNum) × (Buf → Option JSNum → Option Buf) :=
    match t with
    | .uint8 =>
        (1, fun view => getUint8V view offset,
            fun view value => setUint8V view offset value)
    | .uint16 =>
        (2, fun view => getUint16V view offset s.littleEndian,
            fun view value => setUint16V view offset value s.littleEndian)
    | .uint32 =>
        (4, fun view => getUint32V view offset s.littleEndian,
            fun view value => setUint32V view offset value s.littleEndian)
    | .float32 =>
        (4, fun view => getFloat32V view offset s.littleEndian,
            fun view value => setFloat32V view offset value s.littleEndian)
  { s with
      size := s.size + size
      fields := s.fields ++ [⟨name, offset, size, read, write⟩] }

/-- V2's `addField` just delegates to `allocField`.  As in V1 there is no
duplicate-name check: a second field with the same name is pushed as well. -/
def StateV2.addField (s : StateV2) (name : String) (t : FieldType) : StateV2 :=
  s.allocField name t

/-- The loop of V2's `read`, over a given field array: `result[field.name] =
field.read(view)` for each field in order. -/
def readV2Over (fields : List FieldV2) (buf : Buf) : Option RecordJS :=
  fields.foldlM (fun r f => (f.read buf).map (jsSet r f.name)) []

/-- The loop of V2's `write`, over a given field array, into the supplied
buffer or a fresh zero-filled one of `structSize` bytes. -/
def writeV2Over (structSize : Nat) (fields : List FieldV2) (data : RecordJS)
    (buffer : Option Buf) : Option Buf :=
  let v0 : Buf :=
    match buffer with
    | some b => b
    | none => List.replicate structSize 0
  fields.foldlM (fun b f => f.write b (jsGet data f.name)) v0

/-- Behaviour of the codec returned by V2's `build` at state `sBuild`, as
observed once the builder has been further mutated to state `sNow`:
`structSize` is a number copied at build time, but `fields` is a reference to
the builder's live array (`const fields = this.fields`), which later
`allocField` calls push onto.  The codec as returned is `observeV2 s s`. -/
def observeV2 (sBuild sNow : StateV2) : Codec :=
  { size := sBuild.size
    read := readV2Over sNow.fields
    write := writeV2Over sBuild.size sNow.fields }

/-- V2's `build`. -/
def StateV2.build (s : StateV2) : Codec := observeV2 s s

/-! ### Running a declaration list through a builder -/

/-- Fold a list of `(name, type)` declarations through V1 `addField` calls,
as the benchmark driver does with `Object.entries(...).reduce(...)`. -/
def mkStateV1 (le : Bool) (decls : List (String × FieldType)) : StateV1 :=
  decls.foldl (fun s d => s.addField d.1 d.2) (StateV1.init le)

/-- Fold a list of `(name, type)` declarations through V2 `addField` calls. -/
def mkStateV2 (le : Bool) (decls : List (String × FieldType)) : StateV2 :=
  decls.foldl (fun s d => s.addField d.1 d.2) (StateV2.init le)

/-- The field width of each scalar type. -/
def width : FieldType → Nat
  | .uint8 => 1
  | .uint16 => 2
  | .uint32 => 4
  | .float32 => 4

/-- Total width of a declaration list. -/
def sumWidths (decls : List (String × FieldType)) : Nat :=
  (decls.map fun d => width d.2).sum

/-- The `ComplexStruct` declaration list of the benchmark driver. -/
def complexStruct : List (String × FieldType) :=
  [("id", .uint32), ("x", .float32), ("y", .float32), ("z", .float32),
   ("flags", .uint16), ("type", .uint8), ("reserved", .uint8)]

/-! ### Layout characterisation -/

/-- The `DataView` getter name chosen by `allocField` for each type. -/
def getterStr : FieldType → String
  | .uint8 => "getUint8"
  | .uint16 => "getUint16"
  | .uint32 => "getUint32"
  | .float32 => "getFloat32"

/-- The `DataView` setter name chosen by `allocField` for each type. -/
def setterStr : FieldType → String
  | .uint8 => "setUint8"
  | .uint16 => "setUint16"
  | .uint32 => "setUint32"
  | .float32 => "setFloat32"

/-- The layout assembled from `base` onwards: each declaration with its
assigned offset (the running sum of the preceding widths). -/
def layoutFrom (base : Nat) : List (String × FieldType) → List (String × FieldType × Nat)
  | [] => []
  | d :: ds => (d.1, d.2, base) :: layoutFrom (base + width d.2) ds

/-- The V1 field record for one layout entry. -/
def fieldV1Of (x : String × FieldType × Nat) : FieldV1 :=
  ⟨x.2.2, width x.2.1, getterStr x.2.1, setterStr x.2.1⟩

/-- The V2 field record for one layout entry (closures bound to the offset
and byte order). -/
def fieldV2Of (le : Bool) (x : String × FieldType × Nat) : FieldV2 :=
  match x with
  | (n, .uint8, offset) =>
      ⟨n, offset, 1, fun view => getUint8V view offset,
        fun view value => setUint8V view offset value⟩
  | (n, .uint16, offset) =>
      ⟨n, offset, 2, fun view => getUint16V view offset le,
        fun view value => setUint16V view offset value le⟩
  | (n, .uint32, offset) =>
      ⟨n, offset, 4, fun view => getUint32V view offset le,
        fun view value => setUint32V view offset value le⟩
  | (n, .float32, offset) =>
      ⟨n, offset, 4, fun view => getFloat32V view offset le,
        fun view value => setFloat32V view offset value le⟩

/-- Name-to-index association built by consecutive `fieldMap.set` calls,
starting at index `base`. -/
def namesIdxFrom (base : Nat) : List (String × FieldType) → List (String × Nat)
  | [] => []
  | d :: ds => (d.1, base) :: namesIdxFrom (base + 1) ds

/-- The lines of the object literal V1 synthesises for `readFn` over a
duplicate-free layout. -/
def readLinesOf (decls : List (String × FieldType)) : List ReadLineV1 :=
  (layoutFrom 0 decls).map fun x => ⟨x.1, getterStr x.2.1, x.2.2⟩

/-- The setter statements V1 synthesises for `writeFn` over a duplicate-free
layout. -/
def writeLinesOf (decls : List (String × FieldType)) : List WriteLineV1 :=
  (layoutFrom 0 decls).map fun x => ⟨x.1, setterStr x.2.1, x.2.2⟩

/-- The value a field's getter decodes from its raw bytes. -/
def decodeBytes (le : Bool) (t : FieldType) (bs : List Nat) : JSNum :=
  match t with
  | .uint8 => .num ((bytesToNatLE bs : ℕ) : ℚ)
  | .uint16 => .num ((bytesToNatLE (orderBytes le bs) : ℕ) : ℚ)
  | .uint32 => .num ((bytesToNatLE (orderBytes le bs) : ℕ) : ℚ)
  | .float32 => f32BitsToJSNum (bytesToNatLE (orderBytes le bs))

/-- The raw bytes a field's setter stores for a given value. -/
def encBytes (le : Bool) (t : FieldType) (v : Option JSNum) : List Nat :=
  match t with
  | .uint8 => [toUintBits 8 v]
  | .uint16 => orderBytes le (natToBytesLE 2 (toUintBits 16 v))
  | .uint32 => orderBytes le (natToBytesLE 4 (toUintBits 32 v))
  | .float32 => orderBytes le (natToBytesLE 4 (jsNumToF32Bits v))

/-- `q` is exactly the value of some finite IEEE-754 binary32 datum. -/
def F32Exact (q : ℚ) : Prop :=
  ∃ bits : Nat, bits < 2 ^ 32 ∧ bits / 2 ^ 23 % 2 ^ 8 ≠ 255 ∧
    f32BitsToJSNum bits = .num q

/-- The value constraint under which a field round-trips exactly: integer
fields hold a natural number below their unsigned bound, `float32` fields
hold a value that is exactly representable in binary32. -/
def ValueOk : FieldType → JSNum → Prop
  | .uint8, v => ∃ k : Nat, k < 2 ^ 8 ∧ v = .num (k : ℚ)
  | .uint16, v => ∃ k : Nat, k < 2 ^ 16 ∧ v = .num (k : ℚ)
  | .uint32, v => ∃ k : Nat, k < 2 ^ 32 ∧ v = .num (k : ℚ)
  | .float32, v => ∃ q : ℚ, F32Exact q ∧ v = .num q

/-- The benchmark driver's `data` record (`0b1010101010101010 = 43690`;
`1.5 = 3/2`, `2.5 = 5/2`, `3.5 = 7/2` written as explicit fractions). -/
def benchRecord : RecordJS :=
  [("id", .num ((1234 : ℕ) : ℚ)), ("x", .num (mkRat 3 2)),
   ("y", .num (mkRat 5 2)), ("z", .num (mkRat 7 2)),
   ("flags", .num ((43690 : ℕ) : ℚ)), ("type", .num ((255 : ℕ) : ℚ)),
   ("reserved", .num ((0 : ℕ) : ℚ))]

/-- Well-formedness of a V1 builder state, maintained by every `addField`:
map indices are in range, the last field is reachable from the map, every
field's byte range lies below the running size, and the last field ends
exactly at the running size. -/
def V1Inv (s : StateV1) : Prop :=
  (∀ p ∈ s.fieldMap, p.2 < s.fields.length) ∧
  (s.fields = [] → s.size = 0) ∧
  (s.fields ≠ [] → ∃ p ∈ s.fieldMap, p.2 + 1 = s.fields.length) ∧
  (∀ f ∈ s.fields, ∃ t, f.getter = getterStr t ∧ f.setter = setterStr t ∧
    f.size = width t ∧ f.offset + f.size ≤ s.size) ∧
  (∀ f, s.fields.getLast? = some f → f.offset + f.size = s.size)

/-- The V2 read loop with the buffer threaded through every step: each
`DataView` getter returns its value and leaves the buffer exactly as it
received it (getters never write). -/
def readV2OverSt (fields : List FieldV2) (buf : Buf) : Option (RecordJS × Buf) :=
  fields.foldlM
    (fun rb f => (f.read rb.2).map fun v => (jsSet rb.1 f.name v, rb.2)) ([], buf)

/-- The synthesised V1 `readFn` with the buffer threaded through every
getter call, analogously to `readV2OverSt`. -/
def runReadV1St (lines : List ReadLineV1) (le : Bool) (buf : Buf) :
    Option (RecordJS × Buf) :=
  lines.foldlM
    (fun rb l => (applyGetter l.getter rb.2 l.offset le).map
      fun v => (jsSet rb.1 l.name v, rb.2)) ([], buf)

theorem sumWidths_nil : sumWidths [] = 0 := rfl

theorem sumWidths_cons (d : String × FieldType) (ds : List (String × FieldType)) :
    sumWidths (d :: ds) = width d.2 + sumWidths ds := by
  simp [sumWidths]

theorem addFieldV1_eq (s : StateV1) (n : String) (t : FieldType) :
    s.addField n t =
      { size := s.size + width t
        fields := s.fields ++ [⟨s.size, width t, getterStr t, setterStr t⟩]
        fieldMap := mapSet s.fieldMap n s.fields.length
        littleEndian := s.littleEndian } := by
  cases t <;>
    simp [StateV1.addField, StateV1.allocField, width, getterStr, setterStr]

theorem addFieldV2_eq (s : StateV2) (n : String) (t : FieldType) :
    s.addField n t =
      { size := s.size + width t
        fields := s.fields ++ [fieldV2Of s.littleEndian (n, t, s.size)]
        littleEndian := s.littleEndian } := by
  cases t <;> rfl

theorem foldV2_spec (decls : List (String × FieldType)) : ∀ s : StateV2,
    decls.foldl (fun s d => s.addField d.1 d.2) s =
      { size := s.size + sumWidths decls
        fields := s.fields ++ (layoutFrom s.size decls).map (fieldV2Of s.littleEndian)
        littleEndian := s.littleEndian } := by
  induction decls with
  | nil => intro s; cases s; simp [sumWidths, layoutFrom]
  | cons d ds ih =>
    intro s
    rw [List.foldl_cons, addFieldV2_eq, ih]
    simp [layoutFrom, sumWidths_cons, Nat.add_assoc]

theorem mkStateV2_eq (le : Bool) (decls : List (String × FieldType)) :
    mkStateV2 le decls =
      { size := sumWidths decls
        fields := (layoutFrom 0 decls).map (fieldV2Of le)
        littleEndian := le } := by
  rw [mkStateV2, foldV2_spec]
  simp [StateV2.init]

theorem foldV1_size (decls : List (String × FieldType)) : ∀ s : StateV1,
    (decls.foldl (fun s d => s.addField d.1 d.2) s).size = s.size + sumWidths decls := by
  induction decls with
  | nil => intro s; simp [sumWidths]
  | cons d ds ih =>
    intro s
    rw [List.foldl_cons, addFieldV1_eq, ih]
    simp [sumWidths_cons, Nat.add_assoc]

theorem foldV1_le (decls : List (String × FieldType)) : ∀ s : StateV1,
    (decls.foldl (fun s d => s.addField d.1 d.2) s).littleEndian = s.littleEndian := by
  induction decls with
  | nil => intro s; rfl
  | cons d ds ih =>
    intro s
    rw [List.foldl_cons, addFieldV1_eq, ih]

theorem foldV1_fields (decls : List (String × FieldType)) : ∀ s : StateV1,
    (decls.foldl (fun s d => s.addField d.1 d.2) s).fields =
      s.fields ++ (layoutFrom s.size decls).map fieldV1Of := by
  induction decls with
  | nil => intro s; simp [layoutFrom]
  | cons d ds ih =>
    intro s
    rw [List.foldl_cons, addFieldV1_eq, ih]
    simp [layoutFrom, fieldV1Of]

theorem mapSet_of_fresh (m : List (String × Nat)) (k : String) (v : Nat)
    (h : ∀ p ∈ m, p.1 ≠ k) : mapSet m k v = m ++ [(k, v)] := by
  have hany : m.any (fun p => p.1 == k) = false := by
    simp only [List.any_eq_false]
    intro p hp
    simpa using h p hp
  simp [mapSet, hany]

theorem foldV1_fieldMap (decls : List (String × FieldType)) :
    ∀ s : StateV1, (decls.map Prod.fst).Nodup →
      (∀ d ∈ decls, ∀ p ∈ s.fieldMap, p.1 ≠ d.1) →
      (decls.foldl (fun s d => s.addField d.1 d.2) s).fieldMap =
        s.fieldMap ++ namesIdxFrom s.fields.length decls := by
  induction decls with
  | nil => intro s _ _; simp [namesIdxFrom]
  | cons d ds ih =>
    intro s hnd hfresh
    rw [List.map_cons, List.nodup_cons] at hnd
    rw [List.foldl_cons, addFieldV1_eq]
    have hstep : mapSet s.fieldMap d.1 s.fields.length =
        s.fieldMap ++ [(d.1, s.fields.length)] :=
      mapSet_of_fresh _ _ _ fun p hp => hfresh d (by simp) p hp
    rw [hstep, ih _ hnd.2]
    · simp [namesIdxFrom]
    · intro d' hd' p hp
      rcases List.mem_append.1 hp with hp | hp
      · exact hfresh d' (by simp [hd']) p hp
      · simp only [List.mem_singleton] at hp
        subst hp
        intro hcontra
        exact hnd.1 (hcontra ▸ List.mem_map_of_mem Prod.fst hd')

/-- The V1 builder state reached by a duplicate-free declaration list. -/
theorem mkStateV1_eq (le : Bool) (decls : List (String × FieldType))
    (h : (decls.map Prod.fst).Nodup) :
    mkStateV1 le decls =
      { size := sumWidths decls
        fields := (layoutFrom 0 decls).map fieldV1Of
        fieldMap := namesIdxFrom 0 decls
        littleEndian := le } := by
  have hsz := foldV1_size decls (StateV1.init le)
  have hf := foldV1_fields decls (StateV1.init le)
  have hle := foldV1_le decls (StateV1.init le)
  have hm := foldV1_fieldMap decls (StateV1.init le) h (by intro d _ p hp; simp [StateV1.init] at hp)
  cases hmk : mkStateV1 le decls with
  | mk sz fs fm b =>
    rw [mkStateV1] at hmk
    rw [hmk] at hsz hf hle hm
    simp only [StateV1.init] at hsz hf hle hm
    simp [hsz, hf, hle, hm]

theorem layoutFrom_length (ds : List (String × FieldType)) :
    ∀ base, (layoutFrom base ds).length = ds.length := by
  induction ds with
  | nil => intro base; rfl
  | cons d ds ih => intro base; simp [layoutFrom, ih]

/-- Every field of a layout lies inside the struct: its byte range
`[offset, offset + width)` is contained in `[base, base + sumWidths)`. -/
theorem layoutFrom_bounds (ds : List (String × FieldType)) :
    ∀ base, ∀ x ∈ layoutFrom base ds,
      base ≤ x.2.2 ∧ x.2.2 + width x.2.1 ≤ base + sumWidths ds := by
  induction ds with
  | nil => intro base x hx; simp [layoutFrom] at hx
  | cons d ds ih =>
    intro base x hx
    rw [layoutFrom, List.mem_cons] at hx
    rcases hx with hx | hx
    · subst hx
      show base ≤ base ∧ base + width d.2 ≤ base + sumWidths (d :: ds)
      rw [sumWidths_cons]
      omega
    · have := ih (base + width d.2) x hx
      rw [sumWidths_cons]
      omega

/-- The `i`-th layout entry: the `i`-th declaration at offset
`base + sumWidths (ds.take i)`. -/
theorem layoutFrom_getElem (ds : List (String × FieldType)) :
    ∀ base i, i < ds.length →
      (layoutFrom base ds)[i]? =
        ds[i]?.map fun d => (d.1, d.2, base + sumWidths (ds.take i)) := by
  induction ds with
  | nil => intro base i h; simp at h
  | cons d ds ih =>
    intro base i h
    cases i with
    | zero => simp [layoutFrom, sumWidths]
    | succ j =>
      have hj : j < ds.length := by simpa using h
      simp only [layoutFrom, List.getElem?_cons_succ, List.take_succ_cons, sumWidths_cons]
      rw [ih (base + width d.2) j hj, Nat.add_assoc]

theorem fieldV1Of_getter (x : String × FieldType × Nat) :
    (fieldV1Of x).getter = getterStr x.2.1 := rfl

theorem synthRead_aux (ds : List (String × FieldType)) :
    ∀ (pre : List FieldV1) (off : Nat),
      (namesIdxFrom pre.length ds).mapM
          (fun p => ((pre ++ (layoutFrom off ds).map fieldV1Of)[p.2]?).map
            fun f => (⟨p.1, f.getter, f.offset⟩ : ReadLineV1)) =
        some ((layoutFrom off ds).map fun x => ⟨x.1, getterStr x.2.1, x.2.2⟩) := by
  induction ds with
  | nil => intro pre off; rfl
  | cons d ds ih =>
    intro pre off
    rw [namesIdxFrom, List.mapM_cons]
    simp only [layoutFrom, List.map_cons]
    rw [List.append_cons]
    have hlen : (pre ++ [fieldV1Of (d.1, d.2, off)]).length = pre.length + 1 := by
      simp
    have hhead : ((pre ++ [fieldV1Of (d.1, d.2, off)]) ++
        (layoutFrom (off + width d.2) ds).map fieldV1Of)[pre.length]? =
          some (fieldV1Of (d.1, d.2, off)) := by
      rw [List.getElem?_append, if_pos (by simp), List.getElem?_append,
        if_neg (by omega)]
      simp
    rw [hhead]
    have htail := ih (pre ++ [fieldV1Of (d.1, d.2, off)]) (off + width d.2)
    rw [hlen] at htail
    rw [htail]
    rfl

theorem synthWrite_aux (ds : List (String × FieldType)) :
    ∀ (pre : List FieldV1) (off : Nat),
      (namesIdxFrom pre.length ds).mapM
          (fun p => ((pre ++ (layoutFrom off ds).map fieldV1Of)[p.2]?).map
            fun f => (⟨p.1, f.setter, f.offset⟩ : WriteLineV1)) =
        some ((layoutFrom off ds).map fun x => ⟨x.1, setterStr x.2.1, x.2.2⟩) := by
  induction ds with
  | nil => intro pre off; rfl
  | cons d ds ih =>
    intro pre off
    rw [namesIdxFrom, List.mapM_cons]
    simp only [layoutFrom, List.map_cons]
    rw [List.append_cons]
    have hlen : (pre ++ [fieldV1Of (d.1, d.2, off)]).length = pre.length + 1 := by
      simp
    have hhead : ((pre ++ [fieldV1Of (d.1, d.2, off)]) ++
        (layoutFrom (off + width d.2) ds).map fieldV1Of)[pre.length]? =
          some (fieldV1Of (d.1, d.2, off)) := by
      rw [List.getElem?_append, if_pos (by simp), List.getElem?_append,
        if_neg (by omega)]
      simp
    rw [hhead]
    have htail := ih (pre ++ [fieldV1Of (d.1, d.2, off)]) (off + width d.2)
    rw [hlen] at htail
    rw [htail]
    rfl

theorem namesIdxFrom_fst (ds : List (String × FieldType)) :
    ∀ (base : Nat) (p : String × Nat), p ∈ namesIdxFrom base ds → ∃ d ∈ ds, p.1 = d.1 := by
  induction ds with
  | nil => intro base p hp; cases hp
  | cons d ds ih =>
    intro base p hp
    rw [namesIdxFrom] at hp
    rcases List.mem_cons.1 hp with hp | hp
    · exact ⟨d, by simp, by rw [hp]⟩
    · rcases ih (base + 1) p hp with ⟨d2, hd2, he⟩
      exact ⟨d2, by simp [hd2], he⟩

theorem synthReadCore_mk (le : Bool) (decls : List (String × FieldType))
    (h : (decls.map Prod.fst).Nodup) :
    synthReadCore (mkStateV1 le decls) = some (readLinesOf decls) := by
  rw [mkStateV1_eq le decls h, synthReadCore]
  have := synthRead_aux decls [] 0
  simpa [readLinesOf] using this

theorem synthWriteCore_mk (le : Bool) (decls : List (String × FieldType))
    (h : (decls.map Prod.fst).Nodup) :
    synthWriteCore (mkStateV1 le decls) = some (writeLinesOf decls) := by
  rw [mkStateV1_eq le decls h, synthWriteCore]
  have := synthWrite_aux decls [] 0
  simpa [writeLinesOf] using this

theorem synthReadV1_mk (le : Bool) (decls : List (String × FieldType))
    (h : (decls.map Prod.fst).Nodup)
    (hid : ∀ d ∈ decls, isJSIdentifier d.1 = true) :
    synthReadV1 (mkStateV1 le decls) = some (readLinesOf decls) := by
  have hall : (mkStateV1 le decls).fieldMap.all (fun p => validReadKey p.1) = true := by
    rw [mkStateV1_eq le decls h]
    show (namesIdxFrom 0 decls).all (fun p => validReadKey p.1) = true
    rw [List.all_eq_true]
    intro p hp
    rcases namesIdxFrom_fst decls 0 p hp with ⟨d, hd, he⟩
    rw [he, validReadKey, hid d hd]
    rfl
  rw [synthReadV1, if_pos hall]
  exact synthReadCore_mk le decls h

theorem synthWriteV1_mk (le : Bool) (decls : List (String × FieldType))
    (h : (decls.map Prod.fst).Nodup)
    (hid : ∀ d ∈ decls, isJSIdentifier d.1 = true) :
    synthWriteV1 (mkStateV1 le decls) = some (writeLinesOf decls) := by
  have hall : (mkStateV1 le decls).fieldMap.all (fun p => isJSIdentifier p.1) = true := by
    rw [mkStateV1_eq le decls h]
    show (namesIdxFrom 0 decls).all (fun p => isJSIdentifier p.1) = true
    rw [List.all_eq_true]
    intro p hp
    rcases namesIdxFrom_fst decls 0 p hp with ⟨d, hd, he⟩
    rw [he]
    exact hid d hd
  rw [synthWriteV1, if_pos hall]
  exact synthWriteCore_mk le decls h

/-- Inverting a successful `readFn` synthesis: the parse guard held and the
lines came from the per-field content. -/
theorem synthReadV1_some (s : StateV1) (rl : List ReadLineV1)
    (h : synthReadV1 s = some rl) :
    s.fieldMap.all (fun p => validReadKey p.1) = true ∧ synthReadCore s = some rl := by
  rw [synthReadV1] at h
  by_cases hc : s.fieldMap.all (fun p => validReadKey p.1) = true
  · rw [if_pos hc] at h
    exact ⟨hc, h⟩
  · rw [if_neg hc] at h
    cases h

/-- Inverting a successful `writeFn` synthesis. -/
theorem synthWriteV1_some (s : StateV1) (wl : List WriteLineV1)
    (h : synthWriteV1 s = some wl) :
    s.fieldMap.all (fun p => isJSIdentifier p.1) = true ∧ synthWriteCore s = some wl := by
  rw [synthWriteV1] at h
  by_cases hc : s.fieldMap.all (fun p => isJSIdentifier p.1) = true
  · rw [if_pos hc] at h
    exact ⟨hc, h⟩
  · rw [if_neg hc] at h
    cases h

/-- V1 `build` on a duplicate-free declaration list of identifier names:
synthesis succeeds and the codec interprets the synthesised lines over a
snapshot of the state. -/
theorem buildV1_mk (le : Bool) (decls : List (String × FieldType))
    (h : (decls.map Prod.fst).Nodup)
    (hid : ∀ d ∈ decls, isJSIdentifier d.1 = true) :
    (mkStateV1 le decls).build =
      some { size := sumWidths decls
             read := runReadV1 (readLinesOf decls) le
             write := runWriteV1 (sumWidths decls) (writeLinesOf decls) le } := by
  have hsz : (mkStateV1 le decls).size = sumWidths decls := by
    have := foldV1_size decls (StateV1.init le)
    simpa [mkStateV1, StateV1.init] using this
  have hle : (mkStateV1 le decls).littleEndian = le := by
    have := foldV1_le decls (StateV1.init le)
    simpa [mkStateV1, StateV1.init] using this
  rw [StateV1.build, synthReadV1_mk le decls h hid, synthWriteV1_mk le decls h hid]
  simp [hsz, hle]

/-- V2 `build` on a declaration list. -/
theorem buildV2_mk (le : Bool) (decls : List (String × FieldType)) :
    (mkStateV2 le decls).build =
      { size := sumWidths decls
        read := readV2Over ((layoutFrom 0 decls).map (fieldV2Of le))
        write := writeV2Over (sumWidths decls) ((layoutFrom 0 decls).map (fieldV2Of le)) } := by
  rw [StateV2.build, observeV2, mkStateV2_eq]

theorem fieldV2Of_name (le : Bool) (x : String × FieldType × Nat) :
    (fieldV2Of le x).name = x.1 := by
  rcases x with ⟨n, t, off⟩
  cases t <;> rfl

theorem fieldV2Of_offset (le : Bool) (x : String × FieldType × Nat) :
    (fieldV2Of le x).offset = x.2.2 := by
  rcases x with ⟨n, t, off⟩
  cases t <;> rfl

theorem fieldV2Of_size (le : Bool) (x : String × FieldType × Nat) :
    (fieldV2Of le x).size = width x.2.1 := by
  rcases x with ⟨n, t, off⟩
  cases t <;> rfl

theorem fieldV2Of_read (le : Bool) (n : String) (t : FieldType) (off : Nat) (buf : Buf) :
    (fieldV2Of le (n, t, off)).read buf =
      (readBytesAt buf off (width t)).map (decodeBytes le t) := by
  cases t <;> rfl

theorem fieldV2Of_write (le : Bool) (n : String) (t : FieldType) (off : Nat)
    (buf : Buf) (v : Option JSNum) :
    (fieldV2Of le (n, t, off)).write buf v = writeBytesAt buf off (encBytes le t v) := by
  cases t <;> rfl

theorem applyGetter_getterStr (t : FieldType) (buf : Buf) (off : Nat) (le : Bool) :
    applyGetter (getterStr t) buf off le =
      (readBytesAt buf off (width t)).map (decodeBytes le t) := by
  cases t <;> rfl

theorem applySetter_setterStr (t : FieldType) (buf : Buf) (off : Nat)
    (v : Option JSNum) (le : Bool) :
    applySetter (setterStr t) buf off v le = writeBytesAt buf off (encBytes le t v) := by
  cases t <;> rfl

theorem encBytes_length (le : Bool) (t : FieldType) (v : Option JSNum) :
    (encBytes le t v).length = width t := by
  have hlen : ∀ w n, (natToBytesLE w n).length = w := by
    intro w
    induction w with
    | zero => intro n; rfl
    | succ w ih => intro n; simp [natToBytesLE, ih]
  have horder : ∀ (b : Bool) (bs : List Nat), (orderBytes b bs).length = bs.length := by
    intro b bs
    cases b <;> simp [orderBytes]
  cases t <;> simp [encBytes, width, horder, hlen]

/-- Appending one field to the array extends the V2 read loop by one step. -/
theorem readV2Over_append_one (fs : List FieldV2) (f : FieldV2) (buf : Buf) :
    readV2Over (fs ++ [f]) buf =
      (readV2Over fs buf).bind fun r => (f.read buf).map fun v => jsSet r f.name v := by
  rw [readV2Over, readV2Over, List.foldlM_append]
  cases fs.foldlM (fun r g => (g.read buf).map (jsSet r g.name)) [] with
  | none => rfl
  | some r =>
    show (f.read buf).map (jsSet r f.name) >>= _ = _
    cases f.read buf <;> rfl

/-! C7: layout determinism -/

/-- C7: for every declaration sequence, both builders assign `totalSize` as
the sum of all field widths, and each field's offset as the sum of the widths
declared before it. -/
theorem c7_layout_determinism (le : Bool) (decls : List (String × FieldType)) :
    (mkStateV1 le decls).size = sumWidths decls ∧
    (mkStateV2 le decls).size = sumWidths decls ∧
    ∀ i, i < decls.length →
      ((mkStateV1 le decls).fields[i]?.map fun f => f.offset) =
          some (sumWidths (decls.take i)) ∧
      ((mkStateV2 le decls).fields[i]?.map fun f => f.offset) =
          some (sumWidths (decls.take i)) := by
  refine ⟨?_, ?_, ?_⟩
  · have := foldV1_size decls (StateV1.init le)
    simpa [mkStateV1, StateV1.init] using this
  · rw [mkStateV2_eq]
  · intro i hi
    constructor
    · have hf := foldV1_fields decls (StateV1.init le)
      rw [mkStateV1, hf]
      simp only [StateV1.init, List.nil_append]
      rw [List.getElem?_map, layoutFrom_getElem decls 0 i hi,
        List.getElem?_eq_getElem hi]
      simp [fieldV1Of]
    · rw [mkStateV2_eq]
      simp only
      rw [List.getElem?_map, layoutFrom_getElem decls 0 i hi,
        List.getElem?_eq_getElem hi]
      simp [fieldV2Of_offset]

/-- Witness for C7 at a concrete layout and index. -/
theorem c7_layout_determinism_witness :
    1 < ([("a", FieldType.uint8), ("b", FieldType.uint16)] : List (String × FieldType)).length ∧
    ((mkStateV1 true [("a", FieldType.uint8), ("b", FieldType.uint16)]).fields[1]?.map
        fun f => f.offset) = some 1 := by
  refine ⟨by decide, ?_⟩
  have h := (c7_layout_determinism true [("a", .uint8), ("b", .uint16)]).2.2 1 (by decide)
  exact h.1

/-! C2: duplicate addField -/

theorem mapSet_mem_self (m : List (String × Nat)) (k : String) (v : Nat) :
    (k, v) ∈ mapSet m k v := by
  by_cases h : m.any (fun p => p.1 == k) = true
  · rcases List.any_eq_true.1 h with ⟨p, hp, hpk⟩
    rw [mapSet, if_pos h]
    refine List.mem_map.2 ⟨p, hp, ?_⟩
    simp only [hpk, if_pos]
  · rw [mapSet, if_neg h]
    simp

/-- C2 counterexample: two `addField "a"` calls on a fresh builder do not
fail; V1 proceeds to a 2-byte layout whose codec reads only the second
field's byte under the name `"a"`, and V2 keeps both same-named fields. -/
theorem c2_counterexample :
    (mkStateV1 true [("a", .uint8), ("a", .uint8)]).size = 2 ∧
    (∃ c, (mkStateV1 true [("a", .uint8), ("a", .uint8)]).build = some c ∧
        c.read [5, 7] = some [("a", .num ((7 : ℕ) : ℚ))]) ∧
    ((mkStateV2 true [("a", .uint8), ("a", .uint8)]).fields.map fun f => f.name) =
      ["a", "a"] := by
  refine ⟨by decide, ⟨_, rfl, by decide⟩, by decide⟩

/-- C2 amended: `addField` with an already-declared name is not rejected:
both builders proceed, allocating space for the duplicate; V1 silently
re-points the `fieldMap` entry at the newest same-named field, and V2 keeps
both entries in its field array. -/
theorem c2_amended (s1 : StateV1) (s2 : StateV2) (n : String) (t t' : FieldType) :
    ((s1.addField n t).addField n t').size = s1.size + width t + width t' ∧
    ((s1.addField n t).addField n t').fields.length = s1.fields.length + 2 ∧
    (n, s1.fields.length + 1) ∈ ((s1.addField n t).addField n t').fieldMap ∧
    ((s2.addField n t).addField n t').size = s2.size + width t + width t' ∧
    ((s2.addField n t).addField n t').fields.length = s2.fields.length + 2 := by
  refine ⟨?_, ?_, ?_, ?_, ?_⟩
  · rw [addFieldV1_eq, addFieldV1_eq]
  · rw [addFieldV1_eq, addFieldV1_eq]
    simp
  · rw [addFieldV1_eq, addFieldV1_eq]
    simp only [List.length_append, List.length_singleton]
    exact mapSet_mem_self _ n (s1.fields.length + 1)
  · rw [addFieldV2_eq, addFieldV2_eq]
  · rw [addFieldV2_eq, addFieldV2_eq]
    simp

/-! C3: isolation of the built codec from later builder mutation -/

/-- C3 counterexample: a V2 codec built from the one-field layout `a:uint8`
decodes `[5, 7]` as `{a: 5}`; after one more `addField "b" uint8` on the same
builder, the very same codec (which iterates the builder's live `fields`
array) decodes `{a: 5, b: 7}`. -/
theorem c3_counterexample :
    (mkStateV2 true [("a", .uint8)]).build.read [5, 7] =
        some [("a", .num ((5 : ℕ) : ℚ))] ∧
    (observeV2 (mkStateV2 true [("a", .uint8)])
          ((mkStateV2 true [("a", .uint8)]).addField "b" .uint8)).read [5, 7] =
        some [("a", .num ((5 : ℕ) : ℚ)), ("b", .num ((7 : ℕ) : ℚ))] ∧
    (observeV2 (mkStateV2 true [("a", .uint8)])
          ((mkStateV2 true [("a", .uint8)]).addField "b" .uint8)).read [5, 7] ≠
      (mkStateV2 true [("a", .uint8)]).build.read [5, 7] := by
  refine ⟨by decide, by decide, by decide⟩

/-- C3 amended: V1's codec is isolated by construction (its behaviour is
fixed by the code synthesised at build time), but a V2 codec is not: its
`size` stays the value copied at build time while its `read` iterates the
builder's live field array, so after a further `addField` it additionally
decodes the new field. -/
theorem c3_amended (s : StateV2) (n : String) (t : FieldType) (buf : Buf) :
    (observeV2 s (s.addField n t)).size = s.size ∧
    (observeV2 s (s.addField n t)).read buf =
      (readV2Over s.fields buf).bind fun r =>
        ((fieldV2Of s.littleEndian (n, t, s.size)).read buf).map fun v => jsSet r n v := by
  constructor
  · rfl
  · show readV2Over (s.addField n t).fields buf = _
    rw [addFieldV2_eq]
    simp only
    rw [readV2Over_append_one]
    rw [fieldV2Of_name]

/-! C6: the concrete ComplexStruct scenario -/

/-- C6 counterexample: the `ComplexStruct` codec's size is not 18 (its seven
fields sum to 4+4+4+4+2+1+1 = 20 bytes). -/
theorem c6_counterexample :
    (mkStateV2 true complexStruct).build.size ≠ 18 ∧
    (∃ c, (mkStateV1 true complexStruct).build = some c ∧ c.size ≠ 18) := by
  refine ⟨by decide, ⟨_, rfl, by decide⟩⟩

/-- C6 amended: the little-endian `ComplexStruct` codec has size 20 (not 18),
and for both builders encoding the benchmark record
`{id:1234, x:1.5, y:2.5, z:3.5, flags:43690, type:255, reserved:0}` and
decoding the result returns exactly that record. -/
theorem c6_amended :
    (mkStateV2 true complexStruct).build.size = 20 ∧
    ((mkStateV2 true complexStruct).build.write benchRecord none).bind
        (mkStateV2 true complexStruct).build.read = some benchRecord ∧
    (∃ c, (mkStateV1 true complexStruct).build = some c ∧ c.size = 20 ∧
      (c.write benchRecord none).bind c.read = some benchRecord) := by
  refine ⟨by decide, by decide, ⟨_, rfl, by decide, by decide⟩⟩

/-! Generic facts about the byte-level primitives -/

theorem natToBytesLE_length (w : Nat) : ∀ n, (natToBytesLE w n).length = w := by
  induction w with
  | zero => intro n; rfl
  | succ w ih => intro n; simp [natToBytesLE, ih]

theorem orderBytes_length (b : Bool) (bs : List Nat) :
    (orderBytes b bs).length = bs.length := by
  cases b <;> simp [orderBytes]

theorem orderBytes_orderBytes (b : Bool) (bs : List Nat) :
    orderBytes b (orderBytes b bs) = bs := by
  cases b <;> simp [orderBytes]

theorem bytesToNatLE_natToBytesLE (w : Nat) :
    ∀ n, n < 256 ^ w → bytesToNatLE (natToBytesLE w n) = n := by
  induction w with
  | zero =>
    intro n h
    interval_cases n
    rfl
  | succ w ih =>
    intro n h
    have hdiv : n / 256 < 256 ^ w := by
      rw [Nat.div_lt_iff_lt_mul (by norm_num)]
      calc n < 256 ^ (w + 1) := h
        _ = 256 ^ w * 256 := by ring
    rw [natToBytesLE, bytesToNatLE, ih _ hdiv]
    omega

theorem writeBytesAt_eq_some (buf : Buf) (off : Nat) (bs : List Nat)
    (h : off + bs.length ≤ buf.length) :
    writeBytesAt buf off bs =
      some (buf.take off ++ bs ++ buf.drop (off + bs.length)) := by
  rw [writeBytesAt, if_pos h]

theorem writeBytesAt_length (buf : Buf) (off : Nat) (bs : List Nat) (out : Buf)
    (h : writeBytesAt buf off bs = some out) : out.length = buf.length := by
  rw [writeBytesAt] at h
  by_cases hle : off + bs.length ≤ buf.length
  · rw [if_pos hle] at h
    cases h
    simp
    omega
  · rw [if_neg hle] at h
    cases h

theorem readBytesAt_eq_some (buf : Buf) (off n : Nat) (h : off + n ≤ buf.length) :
    readBytesAt buf off n = some ((buf.drop off).take n) := by
  rw [readBytesAt, if_pos h]

theorem readBytesAt_eq_none (buf : Buf) (off n : Nat) (h : buf.length < off + n) :
    readBytesAt buf off n = none := by
  rw [readBytesAt, if_neg (by omega)]

/-! The V2 write loop over a layout splices the concatenated per-field
encodings into the buffer. -/

theorem writeV2_layout (ds : List (String × FieldType)) :
    ∀ (le : Bool) (data : RecordJS) (base : Nat) (buf : Buf),
      base + sumWidths ds ≤ buf.length →
      ((layoutFrom base ds).map (fieldV2Of le)).foldlM
          (fun b f => f.write b (jsGet data f.name)) buf =
        some (buf.take base ++
          (((layoutFrom base ds).map fun x => encBytes le x.2.1 (jsGet data x.1)).flatten) ++
          buf.drop (base + sumWidths ds)) := by
  induction ds with
  | nil =>
    intro le data base buf h
    simp only [layoutFrom, List.map_nil, List.foldlM_nil, List.flatten_nil,
      sumWidths_nil, Nat.add_zero, List.append_nil]
    rw [List.take_append_drop]
    rfl
  | cons d ds ih =>
    intro le data base buf h
    rw [sumWidths_cons] at h
    simp only [layoutFrom, List.map_cons, List.foldlM_cons, List.flatten_cons]
    have hw : (encBytes le d.2 (jsGet data d.1)).length = width d.2 :=
      encBytes_length le d.2 (jsGet data d.1)
    have h1 : base + (encBytes le d.2 (jsGet data d.1)).length ≤ buf.length := by
      rw [hw]; omega
    rw [fieldV2Of_name, fieldV2Of_write, writeBytesAt_eq_some _ _ _ h1]
    have htbase : (buf.take base).length = base := by
      rw [List.length_take]; omega
    have hlen1 : (buf.take base ++ encBytes le d.2 (jsGet data d.1) ++
        buf.drop (base + (encBytes le d.2 (jsGet data d.1)).length)).length = buf.length := by
      simp only [List.length_append, List.length_drop, htbase, hw]
      omega
    have hrec := ih le data (base + width d.2)
      (buf.take base ++ encBytes le d.2 (jsGet data d.1) ++
        buf.drop (base + (encBytes le d.2 (jsGet data d.1)).length))
      (by rw [hlen1]; omega)
    simp only [Option.bind_eq_bind, Option.some_bind] at *
    rw [hrec]
    congr 1
    have hpre : (buf.take base ++ encBytes le d.2 (jsGet data d.1)).length =
        base + width d.2 := by
      simp [htbase, hw]
    have htake : (buf.take base ++ encBytes le d.2 (jsGet data d.1) ++
        buf.drop (base + (encBytes le d.2 (jsGet data d.1)).length)).take (base + width d.2) =
          buf.take base ++ encBytes le d.2 (jsGet data d.1) := by
      rw [List.take_left' hpre]
    have hdrop : ∀ k, (buf.take base ++ encBytes le d.2 (jsGet data d.1) ++
        buf.drop (base + (encBytes le d.2 (jsGet data d.1)).length)).drop
          (base + width d.2 + k) = buf.drop (base + width d.2 + k) := by
      intro k
      have hd1 : (buf.take base ++ encBytes le d.2 (jsGet data d.1) ++
          buf.drop (base + (encBytes le d.2 (jsGet data d.1)).length)).drop
            (base + width d.2) = buf.drop (base + width d.2) := by
        rw [List.drop_left' hpre, hw]
      have h4 := congrArg (List.drop k) hd1
      simp only [List.drop_drop] at h4
      convert h4 using 2
    rw [htake, hdrop (sumWidths ds)]
    simp [List.append_assoc, Nat.add_assoc, sumWidths_cons]

theorem width_pos (t : FieldType) : 1 ≤ width t := by
  cases t <;> simp [width]

/-! The V2 read loop over a layout whose bytes sit in the buffer at their
offsets decodes each field's own bytes. -/

theorem readV2_layout (ds : List (String × FieldType)) :
    ∀ (le : Bool) (encf : String → FieldType → List Nat) (base : Nat) (B : Buf)
      (post : List Nat) (r : RecordJS),
      (∀ n t, (encf n t).length = width t) →
      B.drop base = ((layoutFrom base ds).map fun x => encf x.1 x.2.1).flatten ++ post →
      ((layoutFrom base ds).map (fieldV2Of le)).foldlM
          (fun r f => (f.read B).map (jsSet r f.name)) r =
        some ((layoutFrom base ds).foldl
          (fun r x => jsSet r x.1 (decodeBytes le x.2.1 (encf x.1 x.2.1))) r) := by
  induction ds with
  | nil => intro le encf base B post r hlen hsub; rfl
  | cons d ds ih =>
    intro le encf base B post r hlen hsub
    simp only [layoutFrom, List.map_cons, List.foldlM_cons, List.flatten_cons,
      List.foldl_cons] at *
    have hw := hlen d.1 d.2
    have hbase : base + width d.2 ≤ B.length := by
      have hlen2 := congrArg List.length hsub
      simp only [List.length_drop, List.length_append] at hlen2
      have := width_pos d.2
      omega
    have hhead : readBytesAt B base (width d.2) = some (encf d.1 d.2) := by
      rw [readBytesAt_eq_some _ _ _ hbase, hsub, List.append_assoc, List.take_left' hw]
    have hsub2 : B.drop (base + width d.2) =
        ((layoutFrom (base + width d.2) ds).map fun x => encf x.1 x.2.1).flatten ++ post := by
      have h5 := congrArg (List.drop (width d.2)) hsub
      rw [List.append_assoc, List.drop_left' hw] at h5
      rw [List.drop_drop] at h5
      convert h5 using 2
    rw [fieldV2Of_name, fieldV2Of_read, hhead]
    simp only [Option.map_some', Option.bind_eq_bind, Option.some_bind]
    exact ih le encf (base + width d.2) B post
      (jsSet r d.1 (decodeBytes le d.2 (encf d.1 d.2))) hlen hsub2

/-! Strategy A interprets its synthesised lines exactly as strategy B runs
its closures. -/

theorem readAgreeV1V2 (xs : List (String × FieldType × Nat)) :
    ∀ (le : Bool) (buf : Buf) (r : RecordJS),
      (xs.map fun x => (⟨x.1, getterStr x.2.1, x.2.2⟩ : ReadLineV1)).foldlM
          (fun r l => (applyGetter l.getter buf l.offset le).map (jsSet r l.name)) r =
        (xs.map (fieldV2Of le)).foldlM
          (fun r f => (f.read buf).map (jsSet r f.name)) r := by
  induction xs with
  | nil => intro le buf r; rfl
  | cons x xs ih =>
    intro le buf r
    rcases x with ⟨n, t, off⟩
    simp only [List.map_cons, List.foldlM_cons]
    rw [show (applyGetter (getterStr t) buf off le) =
        (readBytesAt buf off (width t)).map (decodeBytes le t) from
      applyGetter_getterStr t buf off le]
    rw [fieldV2Of_read, fieldV2Of_name]
    cases readBytesAt buf off (width t) with
    | none => rfl
    | some bs =>
      simp only [Option.map_some', Option.bind_eq_bind, Option.some_bind]
      exact ih le buf _

theorem writeAgreeV1V2 (xs : List (String × FieldType × Nat)) :
    ∀ (le : Bool) (data : RecordJS) (b : Buf),
      (xs.map fun x => (⟨x.1, setterStr x.2.1, x.2.2⟩ : WriteLineV1)).foldlM
          (fun b l => applySetter l.setter b l.offset (jsGet data l.name) le) b =
        (xs.map (fieldV2Of le)).foldlM
          (fun b f => f.write b (jsGet data f.name)) b := by
  induction xs with
  | nil => intro le data b; rfl
  | cons x xs ih =>
    intro le data b
    rcases x with ⟨n, t, off⟩
    simp only [List.map_cons, List.foldlM_cons]
    rw [show applySetter (setterStr t) b off (jsGet data n) le =
        writeBytesAt b off (encBytes le t (jsGet data n)) from
      applySetter_setterStr t b off (jsGet data n) le]
    rw [fieldV2Of_write, fieldV2Of_name]
    cases writeBytesAt b off (encBytes le t (jsGet data n)) with
    | none => rfl
    | some b2 =>
      simp only [Option.bind_eq_bind, Option.some_bind]
      exact ih le data b2

theorem writeV2Over_unfold (sz : Nat) (fields : List FieldV2) (data : RecordJS)
    (buffer : Option Buf) :
    writeV2Over sz fields data buffer =
      fields.foldlM (fun b f => f.write b (jsGet data f.name))
        (match buffer with | some b => b | none => List.replicate sz 0) := rfl

theorem runWriteV1_unfold (sz : Nat) (lines : List WriteLineV1) (le : Bool)
    (data : RecordJS) (buffer : Option Buf) :
    runWriteV1 sz lines le data buffer =
      lines.foldlM (fun b l => applySetter l.setter b l.offset (jsGet data l.name) le)
        (match buffer with | some b => b | none => List.replicate sz 0) := rfl

theorem runReadV1_eq (decls : List (String × FieldType)) (le : Bool) (buf : Buf) :
    runReadV1 (readLinesOf decls) le buf =
      readV2Over ((layoutFrom 0 decls).map (fieldV2Of le)) buf := by
  rw [runReadV1, readV2Over, readLinesOf]
  exact readAgreeV1V2 (layoutFrom 0 decls) le buf []

theorem runWriteV1_eq (decls : List (String × FieldType)) (le : Bool)
    (data : RecordJS) (buffer : Option Buf) :
    runWriteV1 (sumWidths decls) (writeLinesOf decls) le data buffer =
      writeV2Over (sumWidths decls) ((layoutFrom 0 decls).map (fieldV2Of le)) data buffer := by
  rw [runWriteV1_unfold, writeV2Over_unfold, writeLinesOf]
  exact writeAgreeV1V2 (layoutFrom 0 decls) le data _

/-- Inversion of V1's `build`. -/
theorem buildV1_inv (s : StateV1) (c : Codec) (h : s.build = some c) :
    ∃ rl wl, synthReadV1 s = some rl ∧ synthWriteV1 s = some wl ∧
      c = { size := s.size
            read := runReadV1 rl s.littleEndian
            write := runWriteV1 s.size wl s.littleEndian } := by
  rw [StateV1.build] at h
  cases hr : synthReadV1 s with
  | none => rw [hr] at h; cases h
  | some rl =>
    cases hw : synthWriteV1 s with
    | none => rw [hr, hw] at h; cases h
    | some wl =>
      rw [hr, hw] at h
      simp only [Option.some_bind, Option.map_some'] at h
      exact ⟨rl, wl, rfl, rfl, (Option.some_injective _ h).symm⟩

/-- When V1's `build` does return a codec on a duplicate-free declaration
list, that codec is the interpreter over the synthesised lines (whatever made
the parse guard pass). -/
theorem buildV1_mk_inv (le : Bool) (decls : List (String × FieldType))
    (h : (decls.map Prod.fst).Nodup) (c : Codec)
    (hc : (mkStateV1 le decls).build = some c) :
    c = { size := sumWidths decls
          read := runReadV1 (readLinesOf decls) le
          write := runWriteV1 (sumWidths decls) (writeLinesOf decls) le } := by
  obtain ⟨rl, wl, hrl, hwl, hceq⟩ := buildV1_inv _ _ hc
  obtain ⟨-, hrl2⟩ := synthReadV1_some _ _ hrl
  obtain ⟨-, hwl2⟩ := synthWriteV1_some _ _ hwl
  have hrleq : rl = readLinesOf decls := by
    rw [synthReadCore_mk le decls h] at hrl2
    exact (Option.some_injective _ hrl2).symm
  have hwleq : wl = writeLinesOf decls := by
    rw [synthWriteCore_mk le decls h] at hwl2
    exact (Option.some_injective _ hwl2).symm
  have hsz : (mkStateV1 le decls).size = sumWidths decls := by
    have := foldV1_size decls (StateV1.init le)
    simpa [mkStateV1, StateV1.init] using this
  have hle : (mkStateV1 le decls).littleEndian = le := by
    have := foldV1_le decls (StateV1.init le)
    simpa [mkStateV1, StateV1.init] using this
  rw [hceq, hrleq, hwleq, hsz, hle]

/-! C5: strategy equivalence -/

/-- C5 counterexample: the two strategies are not unconditionally equivalent
over duplicate-free declaration sequences.  With the distinct names `"a b"`
and `"c"`, V1's `build` throws — the synthesised source does not parse, since
`a b: view.getUint8(0, true)` and `data.a b` are syntax errors — while V2,
which never feeds names through a parser, builds a working codec decoding
both fields. -/
theorem c5_counterexample :
    (([("a b", FieldType.uint8), ("c", FieldType.uint8)].map Prod.fst).Nodup) ∧
    (mkStateV1 true [("a b", FieldType.uint8), ("c", FieldType.uint8)]).build = none ∧
    (mkStateV2 true [("a b", FieldType.uint8), ("c", FieldType.uint8)]).build.read [5, 7] =
      some [("a b", JSNum.num ((5 : ℕ) : ℚ)), ("c", JSNum.num ((7 : ℕ) : ℚ))] :=
  ⟨by decide, rfl, by decide⟩

/-- C5 amended: for any duplicate-free declaration sequence whose names are
plain identifiers — exactly when `new Function` accepts the synthesised
source — the V1 (`new Function()`-synthesis) codec exists and is
behaviourally identical to the V2 (closure-table) codec: equal size,
identical decode results on every buffer, identical encode results for every
record and target buffer. -/
theorem c5_amended (le : Bool) (decls : List (String × FieldType))
    (h : (decls.map Prod.fst).Nodup)
    (hid : ∀ d ∈ decls, isJSIdentifier d.1 = true) :
    ∃ c1, (mkStateV1 le decls).build = some c1 ∧
      c1.size = (mkStateV2 le decls).build.size ∧
      (∀ buf, c1.read buf = (mkStateV2 le decls).build.read buf) ∧
      ∀ data buffer, c1.write data buffer = (mkStateV2 le decls).build.write data buffer := by
  refine ⟨_, buildV1_mk le decls h hid, ?_, ?_, ?_⟩
  · rw [buildV2_mk]
  · intro buf
    rw [buildV2_mk]
    exact runReadV1_eq decls le buf
  · intro data buffer
    rw [buildV2_mk]
    exact runWriteV1_eq decls le data buffer

/-- Witness for C5's amended statement at a concrete two-field layout. -/
theorem c5_amended_witness :
    (([("a", FieldType.uint16), ("b", FieldType.float32)].map Prod.fst).Nodup) ∧
    (∀ d ∈ [("a", FieldType.uint16), ("b", FieldType.float32)], isJSIdentifier d.1 = true) ∧
    (∃ c1, (mkStateV1 true [("a", FieldType.uint16), ("b", FieldType.float32)]).build = some c1 ∧
      c1.size = (mkStateV2 true [("a", FieldType.uint16), ("b", FieldType.float32)]).build.size ∧
      (∀ buf, c1.read buf =
        (mkStateV2 true [("a", FieldType.uint16), ("b", FieldType.float32)]).build.read buf) ∧
      ∀ data buffer, c1.write data buffer =
        (mkStateV2 true [("a", FieldType.uint16), ("b", FieldType.float32)]).build.write data buffer) :=
  ⟨by decide, by decide,
    c5_amended true [("a", .uint16), ("b", .float32)] (by decide) (by decide)⟩

/-! C9: encode input order independence -/

theorem writeFoldV2_lookup_congr (fields : List FieldV2) :
    ∀ (data1 data2 : RecordJS) (b : Buf),
      (∀ n, jsGet data1 n = jsGet data2 n) →
      fields.foldlM (fun b f => f.write b (jsGet data1 f.name)) b =
        fields.foldlM (fun b f => f.write b (jsGet data2 f.name)) b := by
  induction fields with
  | nil => intro data1 data2 b h; rfl
  | cons f fs ih =>
    intro data1 data2 b h
    simp only [List.foldlM_cons]
    rw [h f.name]
    cases f.write b (jsGet data2 f.name) with
    | none => rfl
    | some b2 =>
      simp only [Option.bind_eq_bind, Option.some_bind]
      exact ih data1 data2 b2 h

theorem writeLinesV1_lookup_congr (lines : List WriteLineV1) :
    ∀ (le : Bool) (data1 data2 : RecordJS) (b : Buf),
      (∀ n, jsGet data1 n = jsGet data2 n) →
      lines.foldlM (fun b l => applySetter l.setter b l.offset (jsGet data1 l.name) le) b =
        lines.foldlM (fun b l => applySetter l.setter b l.offset (jsGet data2 l.name) le) b := by
  induction lines with
  | nil => intro le data1 data2 b h; rfl
  | cons l ls ih =>
    intro le data1 data2 b h
    simp only [List.foldlM_cons]
    rw [h l.name]
    cases applySetter l.setter b l.offset (jsGet data2 l.name) le with
    | none => rfl
    | some b2 =>
      simp only [Option.bind_eq_bind, Option.some_bind]
      exact ih le data1 data2 b2 h

/-- C9: the buffer produced by encode depends only on the record's
name-to-value mapping, not on the order of its entries: if two records agree
under property lookup on every name, both codecs' `write` results coincide on
them (for every optional target buffer). -/
theorem c9_order_independence (le : Bool) (decls : List (String × FieldType))
    (r1 r2 : RecordJS) (h : ∀ n, jsGet r1 n = jsGet r2 n) :
    (∀ buffer, (mkStateV2 le decls).build.write r1 buffer =
        (mkStateV2 le decls).build.write r2 buffer) ∧
    ∀ c, (mkStateV1 le decls).build = some c →
      ∀ buffer, c.write r1 buffer = c.write r2 buffer := by
  constructor
  · intro buffer
    show writeV2Over _ _ r1 buffer = writeV2Over _ _ r2 buffer
    rw [writeV2Over_unfold, writeV2Over_unfold]
    exact writeFoldV2_lookup_congr _ r1 r2 _ h
  · intro c hc buffer
    rcases buildV1_inv _ _ hc with ⟨rl, wl, _, _, hceq⟩
    subst hceq
    show runWriteV1 _ _ _ r1 buffer = runWriteV1 _ _ _ r2 buffer
    rw [runWriteV1_unfold, runWriteV1_unfold]
    exact writeLinesV1_lookup_congr wl _ r1 r2 _ h

/-- Witness for C9: two record presentations of the same mapping. -/
theorem c9_order_independence_witness :
    (∀ n, jsGet [("a", JSNum.num ((1 : ℕ) : ℚ)), ("b", JSNum.num ((2 : ℕ) : ℚ))] n =
        jsGet [("b", JSNum.num ((2 : ℕ) : ℚ)), ("a", JSNum.num ((1 : ℕ) : ℚ))] n) ∧
    ∀ buffer,
      (mkStateV2 true [("a", FieldType.uint8), ("b", FieldType.uint8)]).build.write
          [("a", JSNum.num ((1 : ℕ) : ℚ)), ("b", JSNum.num ((2 : ℕ) : ℚ))] buffer =
        (mkStateV2 true [("a", FieldType.uint8), ("b", FieldType.uint8)]).build.write
          [("b", JSNum.num ((2 : ℕ) : ℚ)), ("a", JSNum.num ((1 : ℕ) : ℚ))] buffer := by
  have hmap : ∀ n, jsGet [("a", JSNum.num ((1 : ℕ) : ℚ)), ("b", JSNum.num ((2 : ℕ) : ℚ))] n =
      jsGet [("b", JSNum.num ((2 : ℕ) : ℚ)), ("a", JSNum.num ((1 : ℕ) : ℚ))] n := by
    intro n
    by_cases h1 : "a" = n
    · subst h1; rfl
    · by_cases h2 : "b" = n
      · subst h2; rfl
      · have e1 : ("a" == n) = false := beq_eq_false_iff_ne.mpr h1
        have e2 : ("b" == n) = false := beq_eq_false_iff_ne.mpr h2
        simp [jsGet, List.find?, e1, e2]
  exact ⟨hmap, (c9_order_independence true [("a", .uint8), ("b", .uint8)] _ _ hmap).1⟩

/-! C1: missing record fields at encode time -/

theorem natToBytesLE_zero (w : Nat) : natToBytesLE w 0 = List.replicate w 0 := by
  induction w with
  | zero => rfl
  | succ w ih => simp [natToBytesLE, ih, List.replicate_succ]

theorem orderBytes_replicate_zero (b : Bool) (w : Nat) :
    orderBytes b (List.replicate w 0) = List.replicate w 0 := by
  cases b <;> simp [orderBytes]

theorem encBytes_none_int (le : Bool) (t : FieldType) (h : t ≠ .float32) :
    encBytes le t none = List.replicate (width t) 0 := by
  cases t with
  | uint8 => rfl
  | uint16 =>
    show orderBytes le (natToBytesLE 2 0) = _
    rw [natToBytesLE_zero, orderBytes_replicate_zero]
    rfl
  | uint32 =>
    show orderBytes le (natToBytesLE 4 0) = _
    rw [natToBytesLE_zero, orderBytes_replicate_zero]
    rfl
  | float32 => exact absurd rfl h

theorem zero_flatten (ds : List (String × FieldType)) :
    ∀ (base : Nat) (le : Bool), (∀ d ∈ ds, d.2 ≠ .float32) →
      ((layoutFrom base ds).map fun x => encBytes le x.2.1 (jsGet [] x.1)).flatten =
        List.replicate (sumWidths ds) 0 := by
  induction ds with
  | nil => intro base le h; rfl
  | cons d ds ih =>
    intro base le h
    simp only [layoutFrom, List.map_cons, List.flatten_cons, sumWidths_cons]
    rw [show jsGet [] d.1 = none from rfl,
      encBytes_none_int le d.2 (h d (by simp)),
      ih (base + width d.2) le (fun d' hd' => h d' (by simp [hd'])),
      ← List.replicate_add]

/-- The V2 write loop over a full layout into a fresh zero-filled buffer
always succeeds and produces the concatenated field encodings. -/
theorem writeV2_layout_fresh (le : Bool) (decls : List (String × FieldType))
    (data : RecordJS) :
    ((layoutFrom 0 decls).map (fieldV2Of le)).foldlM
        (fun b f => f.write b (jsGet data f.name))
        (List.replicate (sumWidths decls) 0) =
      some (((layoutFrom 0 decls).map fun x => encBytes le x.2.1 (jsGet data x.1)).flatten) := by
  have h := writeV2_layout decls le data 0 (List.replicate (sumWidths decls) 0) (by simp)
  simpa using h

/-- C1 counterexample: encoding a record that lacks the declared field
`type` does not fail; both codecs silently produce the zero byte. -/
theorem c1_counterexample :
    (mkStateV2 true [("type", .uint8)]).build.write [] none = some [0] ∧
    ∃ c, (mkStateV1 true [("type", .uint8)]).build = some c ∧
      c.write [] none = some [0] := by
  refine ⟨by decide, ⟨_, rfl, by decide⟩⟩

/-- C1 amended: encode never fails on a missing field.  A missing field reads
as `undefined`, which the `DataView` setters coerce (via NaN) to `0` for the
integer types and to a NaN bit pattern for `float32`.  In particular, on a
layout with unique names, `write` into a fresh buffer succeeds for every
record, and on an all-integer layout the completely empty record encodes to
the all-zero buffer — the silent zero-fill the spec wanted ruled out. -/
theorem c1_missing_field_silent (le : Bool) (decls : List (String × FieldType))
    (r : RecordJS) (h : (decls.map Prod.fst).Nodup) :
    (∃ out, (mkStateV2 le decls).build.write r none = some out) ∧
    (∀ c, (mkStateV1 le decls).build = some c → ∃ out, c.write r none = some out) ∧
    ((∀ d ∈ decls, d.2 ≠ .float32) →
      (mkStateV2 le decls).build.write [] none =
          some (List.replicate (sumWidths decls) 0) ∧
      ∀ c, (mkStateV1 le decls).build = some c →
        c.write [] none = some (List.replicate (sumWidths decls) 0)) := by
  have hkey : ∀ data, (mkStateV2 le decls).build.write data none =
      some (((layoutFrom 0 decls).map fun x => encBytes le x.2.1 (jsGet data x.1)).flatten) := by
    intro data
    rw [buildV2_mk]
    show writeV2Over _ _ data none = _
    rw [writeV2Over_unfold]
    exact writeV2_layout_fresh le decls data
  have hkey1 : ∀ c, (mkStateV1 le decls).build = some c → ∀ data,
      c.write data none =
        some (((layoutFrom 0 decls).map fun x => encBytes le x.2.1 (jsGet data x.1)).flatten) := by
    intro c hc data
    have hceq := buildV1_mk_inv le decls h c hc
    subst hceq
    show runWriteV1 _ _ _ data none = _
    rw [runWriteV1_eq, writeV2Over_unfold]
    exact writeV2_layout_fresh le decls data
  refine ⟨⟨_, hkey r⟩, fun c hc => ⟨_, hkey1 c hc r⟩, fun hint => ⟨?_, fun c hc => ?_⟩⟩
  · rw [hkey [], zero_flatten decls 0 le hint]
  · rw [hkey1 c hc [], zero_flatten decls 0 le hint]

/-- Witness for C1's amended statement on the one-field layout `type:uint8`
with the empty record. -/
theorem c1_missing_field_silent_witness :
    (([("type", FieldType.uint8)].map Prod.fst).Nodup) ∧
    ((∃ out, (mkStateV2 true [("type", FieldType.uint8)]).build.write [] none = some out) ∧
    (∀ c, (mkStateV1 true [("type", FieldType.uint8)]).build = some c →
      ∃ out, c.write [] none = some out) ∧
    ((∀ d ∈ [("type", FieldType.uint8)], d.2 ≠ FieldType.float32) →
      (mkStateV2 true [("type", FieldType.uint8)]).build.write [] none =
          some (List.replicate (sumWidths [("type", FieldType.uint8)]) 0) ∧
      ∀ c, (mkStateV1 true [("type", FieldType.uint8)]).build = some c →
        c.write [] none = some (List.replicate (sumWidths [("type", FieldType.uint8)]) 0))) :=
  ⟨by decide, c1_missing_field_silent true [("type", .uint8)] [] (by decide)⟩

/-! C8/C10 machinery: failure and success of the read loops. -/

theorem mapSet_mem_sub (m : List (String × Nat)) (k : String) (v : Nat) :
    ∀ p ∈ mapSet m k v, p ∈ m ∨ p = (k, v) := by
  intro p hp
  by_cases h : m.any (fun q => q.1 == k) = true
  · rw [mapSet, if_pos h] at hp
    rcases List.mem_map.1 hp with ⟨q, hq, hqe⟩
    by_cases hqk : q.1 == k
    · right
      rw [if_pos hqk] at hqe
      exact hqe.symm
    · left
      rw [if_neg hqk] at hqe
      exact hqe ▸ hq
  · rw [mapSet, if_neg h] at hp
    rcases List.mem_append.1 hp with hp | hp
    · exact Or.inl hp
    · simp only [List.mem_singleton] at hp
      exact Or.inr hp

theorem V1Inv_init (le : Bool) : V1Inv (StateV1.init le) := by
  refine ⟨?_, ?_, ?_, ?_, ?_⟩ <;> simp [StateV1.init, V1Inv]

theorem V1Inv_addField (s : StateV1) (n : String) (t : FieldType)
    (h : V1Inv s) : V1Inv (s.addField n t) := by
  obtain ⟨ha, hb, hc, hd, he⟩ := h
  rw [addFieldV1_eq]
  refine ⟨?_, ?_, ?_, ?_, ?_⟩
  · intro p hp
    simp only at hp
    rcases mapSet_mem_sub _ _ _ p hp with hp | hp
    · have := ha p hp
      simp only [List.length_append, List.length_singleton]
      omega
    · subst hp
      simp
  · intro hemp
    simp at hemp
  · intro _
    refine ⟨(n, s.fields.length), mapSet_mem_self _ _ _, ?_⟩
    simp
  · intro f hf
    rcases List.mem_append.1 hf with hf | hf
    · rcases hd f hf with ⟨t', h1, h2, h3, h4⟩
      exact ⟨t', h1, h2, h3, by dsimp only; omega⟩
    · simp only [List.mem_singleton] at hf
      subst hf
      exact ⟨t, rfl, rfl, rfl, by dsimp only; omega⟩
  · intro f hf
    rw [List.getLast?_concat] at hf
    cases hf
    rfl

theorem V1Inv_mk (le : Bool) (decls : List (String × FieldType)) :
    V1Inv (mkStateV1 le decls) := by
  rw [mkStateV1]
  have : ∀ (ds : List (String × FieldType)) (s : StateV1), V1Inv s →
      V1Inv (ds.foldl (fun s d => s.addField d.1 d.2) s) := by
    intro ds
    induction ds with
    | nil => intro s hs; exact hs
    | cons d ds ih =>
      intro s hs
      exact ih _ (V1Inv_addField s d.1 d.2 hs)
  exact this decls _ (V1Inv_init le)

theorem mapM_isSome {α β : Type} (g : α → Option β) (l : List α)
    (h : ∀ a ∈ l, (g a).isSome) : ∃ bs, l.mapM g = some bs := by
  induction l with
  | nil => exact ⟨[], rfl⟩
  | cons a l ih =>
    rcases Option.isSome_iff_exists.1 (h a (by simp)) with ⟨b, hb⟩
    rcases ih (fun a ha => h a (by simp [ha])) with ⟨bs, hbs⟩
    refine ⟨b :: bs, ?_⟩
    rw [List.mapM_cons, hb, hbs]
    rfl

theorem mapM_mem {α β : Type} (g : α → Option β) :
    ∀ (l : List α) (bs : List β), l.mapM g = some bs →
      ∀ a ∈ l, ∀ b, g a = some b → b ∈ bs := by
  intro l
  induction l with
  | nil => intro bs h a ha; simp at ha
  | cons x l ih =>
    intro bs h a ha b hb
    rw [List.mapM_cons] at h
    cases hx : g x with
    | none => rw [hx] at h; cases h
    | some y =>
      rw [hx] at h
      cases hrest : l.mapM g with
      | none => rw [hrest] at h; cases h
      | some ys =>
        rw [hrest] at h
        simp only [Option.bind_eq_bind, Option.some_bind, Option.map_some'] at h
        have hbs : bs = y :: ys := by
          cases h
          rfl
        subst hbs
        rcases List.mem_cons.1 ha with ha | ha
        · subst ha
          rw [hx] at hb
          cases hb
          simp
        · exact List.mem_cons_of_mem _ (ih ys hrest a ha b hb)

theorem mapM_mem_rev {α β : Type} (g : α → Option β) :
    ∀ (l : List α) (bs : List β), l.mapM g = some bs →
      ∀ b ∈ bs, ∃ a ∈ l, g a = some b := by
  intro l
  induction l with
  | nil =>
    intro bs h b hb
    cases h
    simp at hb
  | cons x l ih =>
    intro bs h b hb
    rw [List.mapM_cons] at h
    cases hx : g x with
    | none => rw [hx] at h; cases h
    | some y =>
      rw [hx] at h
      cases hrest : l.mapM g with
      | none => rw [hrest] at h; cases h
      | some ys =>
        rw [hrest] at h
        have hbs : bs = y :: ys := by
          cases h
          rfl
        subst hbs
        rcases List.mem_cons.1 hb with hb | hb
        · exact ⟨x, by simp, hb ▸ hx⟩
        · rcases ih ys hrest b hb with ⟨a, ha, hab⟩
          exact ⟨a, by simp [ha], hab⟩

theorem readFoldV2_none (fields : List FieldV2) (buf : Buf) (f : FieldV2)
    (hf : f ∈ fields) (hnone : f.read buf = none) :
    ∀ r, fields.foldlM (fun r g => (g.read buf).map (jsSet r g.name)) r = none := by
  induction fields with
  | nil => cases hf
  | cons g gs ih =>
    intro r
    rw [List.foldlM_cons]
    rcases List.mem_cons.1 hf with hf | hf
    · subst hf
      rw [hnone]
      rfl
    · cases hg : g.read buf with
      | none => rfl
      | some v =>
        simp only [Option.map_some', Option.bind_eq_bind, Option.some_bind]
        exact ih hf _

theorem readLinesV1_none (lines : List ReadLineV1) (le : Bool) (buf : Buf)
    (l : ReadLineV1) (hl : l ∈ lines)
    (hnone : applyGetter l.getter buf l.offset le = none) :
    ∀ r, lines.foldlM
        (fun r l => (applyGetter l.getter buf l.offset le).map (jsSet r l.name)) r = none := by
  induction lines with
  | nil => cases hl
  | cons g gs ih =>
    intro r
    rw [List.foldlM_cons]
    rcases List.mem_cons.1 hl with hl | hl
    · subst hl
      rw [hnone]
      rfl
    · cases hg : applyGetter g.getter buf g.offset le with
      | none => rfl
      | some v =>
        simp only [Option.map_some', Option.bind_eq_bind, Option.some_bind]
        exact ih hl _

theorem readFoldV2_isSome (fields : List FieldV2) (buf : Buf)
    (h : ∀ f ∈ fields, (f.read buf).isSome) :
    ∀ r, ∃ out, fields.foldlM (fun r g => (g.read buf).map (jsSet r g.name)) r = some out := by
  induction fields with
  | nil => intro r; exact ⟨r, rfl⟩
  | cons g gs ih =>
    intro r
    rcases Option.isSome_iff_exists.1 (h g (by simp)) with ⟨v, hv⟩
    rcases ih (fun f hf => h f (by simp [hf])) (jsSet r g.name v) with ⟨out, hout⟩
    refine ⟨out, ?_⟩
    rw [List.foldlM_cons, hv]
    simpa using hout

theorem readLinesV1_isSome (lines : List ReadLineV1) (le : Bool) (buf : Buf)
    (h : ∀ l ∈ lines, (applyGetter l.getter buf l.offset le).isSome) :
    ∀ r, ∃ out, lines.foldlM
        (fun r l => (applyGetter l.getter buf l.offset le).map (jsSet r l.name)) r = some out := by
  induction lines with
  | nil => intro r; exact ⟨r, rfl⟩
  | cons g gs ih =>
    intro r
    rcases Option.isSome_iff_exists.1 (h g (by simp)) with ⟨v, hv⟩
    rcases ih (fun l hl => h l (by simp [hl])) (jsSet r g.name v) with ⟨out, hout⟩
    refine ⟨out, ?_⟩
    rw [List.foldlM_cons, hv]
    simpa using hout

theorem layoutFrom_last (ds : List (String × FieldType)) (hne : ds ≠ []) :
    ∀ base, ∃ x ∈ layoutFrom base ds, x.2.2 + width x.2.1 = base + sumWidths ds := by
  induction ds with
  | nil => exact absurd rfl hne
  | cons d ds ih =>
    intro base
    cases hds : ds with
    | nil =>
      refine ⟨(d.1, d.2, base), by simp [layoutFrom], ?_⟩
      subst hds
      simp [sumWidths_cons, sumWidths_nil]
    | cons d2 ds2 =>
      rcases ih (by simp [hds]) (base + width d.2) with ⟨x, hx, hxe⟩
      rw [← hds] at *
      refine ⟨x, by simp [layoutFrom, hx], ?_⟩
      rw [hxe, sumWidths_cons]
      omega

theorem applyGetter_out_of_range (t : FieldType) (buf : Buf) (off : Nat) (le : Bool)
    (h : buf.length < off + width t) :
    applyGetter (getterStr t) buf off le = none := by
  rw [applyGetter_getterStr, readBytesAt_eq_none _ _ _ h]
  rfl

/-! C8: bounds rejection on short buffers -/

/-- C8: decoding a buffer strictly shorter than the codec's size fails with
the bounds error of the underlying `DataView` access (no partial record is
returned), for both builders. -/
theorem c8_bounds_rejection (le : Bool) (decls : List (String × FieldType))
    (buf : Buf) (h : buf.length < sumWidths decls) :
    ((mkStateV2 le decls).build.size = sumWidths decls ∧
      (mkStateV2 le decls).build.read buf = none) ∧
    ∀ c, (mkStateV1 le decls).build = some c →
      c.size = sumWidths decls ∧ c.read buf = none := by
  have hne : decls ≠ [] := by
    intro hd
    subst hd
    simp [sumWidths] at h
  rcases layoutFrom_last decls hne 0 with ⟨x, hx, hxe⟩
  constructor
  · constructor
    · rw [buildV2_mk]
    · have hxread : (fieldV2Of le x).read buf = none := by
        rcases x with ⟨n, t, off⟩
        simp only at hxe
        rw [fieldV2Of_read, readBytesAt_eq_none _ _ _ (by omega)]
        rfl
      rw [buildV2_mk]
      show readV2Over _ _ = none
      exact readFoldV2_none _ buf (fieldV2Of le x) (List.mem_map_of_mem _ hx) hxread []
  · intro c hc
    obtain ⟨rl, wl, hrl, hwl, hceq⟩ := buildV1_inv _ _ hc
    obtain ⟨-, hrlc⟩ := synthReadV1_some _ _ hrl
    subst hceq
    have hsz : (mkStateV1 le decls).size = sumWidths decls := by
      have := foldV1_size decls (StateV1.init le)
      simpa [mkStateV1, StateV1.init] using this
    refine ⟨hsz, ?_⟩
    obtain ⟨ha, hb, hcI, hd, he⟩ := V1Inv_mk le decls
    have hfne : (mkStateV1 le decls).fields ≠ [] := by
      intro hemp
      have h0 := hb hemp
      omega
    obtain ⟨p, hp, hpN⟩ := hcI hfne
    have hlast0 : ((mkStateV1 le decls).fields.getLast?).isSome := by
      rw [List.getLast?_isSome]
      exact hfne
    obtain ⟨flast, hlast⟩ := Option.isSome_iff_exists.1 hlast0
    have hend := he flast hlast
    have hlastIdx : (mkStateV1 le decls).fields[(mkStateV1 le decls).fields.length - 1]? =
        some flast := by
      rw [← List.getLast?_eq_getElem?]
      exact hlast
    have hmem : flast ∈ (mkStateV1 le decls).fields := List.getElem?_mem hlastIdx
    obtain ⟨t, hget, _, hwidth, _⟩ := hd flast hmem
    have hidx : (mkStateV1 le decls).fields[p.2]? = some flast := by
      have hp2 : p.2 = (mkStateV1 le decls).fields.length - 1 := by omega
      rw [hp2]
      exact hlastIdx
    have hline : (⟨p.1, flast.getter, flast.offset⟩ : ReadLineV1) ∈ rl := by
      apply mapM_mem _ _ _ hrlc p hp
      rw [hidx]
      rfl
    have hfail : applyGetter flast.getter buf flast.offset
        (mkStateV1 le decls).littleEndian = none := by
      rw [hget]
      apply applyGetter_out_of_range
      omega
    show runReadV1 rl (mkStateV1 le decls).littleEndian buf = none
    rw [runReadV1]
    exact readLinesV1_none rl _ buf _ hline hfail []

/-- Witness for C8 on a one-byte buffer against a two-byte layout. -/
theorem c8_bounds_rejection_witness :
    ([(5 : Nat)].length < sumWidths [("a", FieldType.uint16)]) ∧
    (((mkStateV2 true [("a", FieldType.uint16)]).build.size =
          sumWidths [("a", FieldType.uint16)] ∧
        (mkStateV2 true [("a", FieldType.uint16)]).build.read [5] = none) ∧
      ∀ c, (mkStateV1 true [("a", FieldType.uint16)]).build = some c →
        c.size = sumWidths [("a", FieldType.uint16)] ∧ c.read [5] = none) :=
  ⟨by decide, c8_bounds_rejection true [("a", .uint16)] [5] (by decide)⟩

/-! C10: decode does not mutate its buffer and is repeatable -/

theorem readV2OverSt_eq (fields : List FieldV2) (buf : Buf) :
    readV2OverSt fields buf = (readV2Over fields buf).map fun r => (r, buf) := by
  rw [readV2OverSt, readV2Over]
  have aux : ∀ (fs : List FieldV2) (r : RecordJS),
      fs.foldlM (fun rb f => (f.read rb.2).map fun v => (jsSet rb.1 f.name v, rb.2))
          ((r, buf) : RecordJS × Buf) =
        (fs.foldlM (fun (r : RecordJS) (f : FieldV2) => (f.read buf).map (jsSet r f.name)) r).map
          fun r => (r, buf) := by
    intro fs
    induction fs with
    | nil => intro r; rfl
    | cons f fs ih =>
      intro r
      rw [List.foldlM_cons, List.foldlM_cons]
      dsimp only
      cases hf : f.read buf with
      | none => rfl
      | some v =>
        simp only [Option.map_some', Option.bind_eq_bind, Option.some_bind]
        exact ih _
  exact aux fields []

theorem runReadV1St_eq (lines : List ReadLineV1) (le : Bool) (buf : Buf) :
    runReadV1St lines le buf = (runReadV1 lines le buf).map fun r => (r, buf) := by
  rw [runReadV1St, runReadV1]
  have aux : ∀ (ls : List ReadLineV1) (r : RecordJS),
      ls.foldlM (fun rb l => (applyGetter l.getter rb.2 l.offset le).map
          fun v => (jsSet rb.1 l.name v, rb.2)) ((r, buf) : RecordJS × Buf) =
        (ls.foldlM (fun (r : RecordJS) (l : ReadLineV1) =>
            (applyGetter l.getter buf l.offset le).map (jsSet r l.name)) r).map
          fun r => (r, buf) := by
    intro ls
    induction ls with
    | nil => intro r; rfl
    | cons l ls ih =>
      intro r
      rw [List.foldlM_cons, List.foldlM_cons]
      dsimp only
      cases hl : applyGetter l.getter buf l.offset le with
      | none => rfl
      | some v =>
        simp only [Option.map_some', Option.bind_eq_bind, Option.some_bind]
        exact ih _
  exact aux lines []

/-- C10: on a buffer at least `size` bytes long, decode succeeds, returns the
buffer it was given unchanged (the state-threaded readers make the getters'
non-mutation explicit), and — being a pure function of the buffer — returns
the same record on every repeated call, for both builders. -/
theorem c10_read_no_mutation (le : Bool) (decls : List (String × FieldType))
    (buf : Buf) (h : sumWidths decls ≤ buf.length) :
    (∃ rec, readV2OverSt (mkStateV2 le decls).fields buf = some (rec, buf) ∧
      (mkStateV2 le decls).build.read buf = some rec) ∧
    ∀ rl, synthReadV1 (mkStateV1 le decls) = some rl →
      ∃ rec, runReadV1St rl (mkStateV1 le decls).littleEndian buf = some (rec, buf) ∧
        ∀ c, (mkStateV1 le decls).build = some c → c.read buf = some rec := by
  constructor
  · have hfields : (mkStateV2 le decls).fields = (layoutFrom 0 decls).map (fieldV2Of le) := by
      rw [mkStateV2_eq]
    have hsome : ∀ f ∈ (mkStateV2 le decls).fields, (f.read buf).isSome := by
      intro f hf
      rw [hfields] at hf
      rcases List.mem_map.1 hf with ⟨x, hx, hfx⟩
      subst hfx
      rcases x with ⟨n, t, off⟩
      have hbound := layoutFrom_bounds decls 0 (n, t, off) hx
      simp only at hbound
      rw [fieldV2Of_read, readBytesAt_eq_some _ _ _ (by omega)]
      rfl
    rcases readFoldV2_isSome _ buf hsome [] with ⟨out, hout⟩
    refine ⟨out, ?_, ?_⟩
    · rw [readV2OverSt_eq]
      show (readV2Over (mkStateV2 le decls).fields buf).map _ = _
      rw [show readV2Over (mkStateV2 le decls).fields buf = some out from hout]
      rfl
    · show readV2Over _ _ = some out
      exact hout
  · intro rl hrl
    obtain ⟨-, hrlc⟩ := synthReadV1_some _ _ hrl
    obtain ⟨ha, hb, hcI, hd, he⟩ := V1Inv_mk le decls
    have hsz : (mkStateV1 le decls).size = sumWidths decls := by
      have := foldV1_size decls (StateV1.init le)
      simpa [mkStateV1, StateV1.init] using this
    have hsome : ∀ l ∈ rl,
        (applyGetter l.getter buf l.offset (mkStateV1 le decls).littleEndian).isSome := by
      intro l hl
      rcases mapM_mem_rev _ _ _ hrlc l hl with ⟨p, hp, hpl⟩
      cases hfp : (mkStateV1 le decls).fields[p.2]? with
      | none => rw [hfp] at hpl; cases hpl
      | some f =>
        rw [hfp] at hpl
        have hfm : f ∈ (mkStateV1 le decls).fields := List.getElem?_mem hfp
        obtain ⟨t, hget, _, hwidth, hbound⟩ := hd f hfm
        simp only [Option.map_some'] at hpl
        cases hpl
        show (applyGetter f.getter buf f.offset _).isSome
        rw [hget, applyGetter_getterStr, readBytesAt_eq_some _ _ _ (by omega)]
        rfl
    rcases readLinesV1_isSome rl _ buf hsome [] with ⟨out, hout⟩
    refine ⟨out, ?_, ?_⟩
    · rw [runReadV1St_eq]
      rw [show runReadV1 rl (mkStateV1 le decls).littleEndian buf = some out from hout]
      rfl
    · intro c hc
      obtain ⟨rl2, wl, hrl2, hwl, hceq⟩ := buildV1_inv _ _ hc
      rw [hrl] at hrl2
      have hrleq : rl2 = rl := (Option.some_injective _ hrl2).symm
      subst hceq
      show runReadV1 rl2 (mkStateV1 le decls).littleEndian buf = some out
      rw [hrleq]
      exact hout

/-- Witness for C10 on a one-field layout and an exactly-sized buffer. -/
theorem c10_read_no_mutation_witness :
    (sumWidths [("a", FieldType.uint8)] ≤ [(9 : Nat)].length) ∧
    ((∃ rec, readV2OverSt (mkStateV2 true [("a", FieldType.uint8)]).fields [9] =
          some (rec, [9]) ∧
        (mkStateV2 true [("a", FieldType.uint8)]).build.read [9] = some rec) ∧
      ∀ rl, synthReadV1 (mkStateV1 true [("a", FieldType.uint8)]) = some rl →
        ∃ rec, runReadV1St rl (mkStateV1 true [("a", FieldType.uint8)]).littleEndian [9] =
            some (rec, [9]) ∧
          ∀ c, (mkStateV1 true [("a", FieldType.uint8)]).build = some c →
            c.read [9] = some rec) :=
  ⟨by decide, c10_read_no_mutation true [("a", .uint8)] [9] (by decide)⟩

/-! IEEE-754 binary32 recovery: the encoder is exact on representable
values. -/

theorem log2fuel_spec : ∀ (f n : Nat), 1 ≤ n → n ≤ 2 ^ f →
    2 ^ log2fuel f n ≤ n ∧ n < 2 ^ (log2fuel f n + 1) := by
  intro f
  induction f with
  | zero =>
    intro n h1 h2
    simp only [pow_zero] at h2
    have hn : n = 1 := by omega
    subst hn
    simp [log2fuel]
  | succ f ih =>
    intro n h1 h2
    by_cases h : 2 ≤ n
    · have hdiv1 : 1 ≤ n / 2 := by omega
      have hdiv2 : n / 2 ≤ 2 ^ f := by
        have h3 : n ≤ 2 ^ f * 2 := by
          rw [← pow_succ]
          exact h2
        omega
      have hrec := ih (n / 2) hdiv1 hdiv2
      rw [show log2fuel (f + 1) n = log2fuel f (n / 2) + 1 by
        rw [log2fuel, if_pos h]]
      constructor
      · calc 2 ^ (log2fuel f (n / 2) + 1) = 2 ^ log2fuel f (n / 2) * 2 := by
              rw [pow_succ]
          _ ≤ (n / 2) * 2 := by omega
          _ ≤ n := by omega
      · have h4 := hrec.2
        calc n < (n / 2 + 1) * 2 := by omega
          _ ≤ 2 ^ (log2fuel f (n / 2) + 1) * 2 := by omega
          _ = 2 ^ (log2fuel f (n / 2) + 1 + 1) :=
              (pow_succ 2 (log2fuel f (n / 2) + 1)).symm
    · have hn : n = 1 := by omega
      subst hn
      rw [show log2fuel (f + 1) 1 = 0 by rw [log2fuel]; rfl]
      simp

theorem natLog2_spec (n : Nat) (h1 : 1 ≤ n) (h2 : n ≤ 2 ^ 2000) :
    2 ^ natLog2 n ≤ n ∧ n < 2 ^ (natLog2 n + 1) :=
  log2fuel_spec 2000 n h1 h2

theorem qpow_toNat (k : Int) (hk : 0 ≤ k) :
    ((2 ^ k.toNat : ℕ) : ℚ) = (2 : ℚ) ^ k := by
  push_cast
  rw [← zpow_natCast (2 : ℚ) k.toNat, Int.toNat_of_nonneg hk]

theorem abs_ratio (q : ℚ) : |q| = (q.num.natAbs : ℚ) / (q.den : ℚ) := by
  nth_rewrite 1 [← Rat.num_div_den q]
  rw [abs_div]
  congr 1
  · rw [Int.cast_natAbs, Int.cast_abs]
  · rw [abs_of_nonneg (by positivity)]

theorem ltPow2_iff (n d : Nat) (hd : 1 ≤ d) (k : Int) :
    ltPow2 n d k = true ↔ ((n : ℚ) / (d : ℚ) < (2 : ℚ) ^ k) := by
  have hdq : (0 : ℚ) < (d : ℚ) := by
    exact_mod_cast Nat.lt_of_lt_of_le Nat.zero_lt_one hd
  rw [ltPow2]
  by_cases hk : 0 ≤ k
  · rw [if_pos hk, ← qpow_toNat k hk, div_lt_iff₀ hdq]
    constructor
    · intro hb
      have h2 : n < d * 2 ^ k.toNat := by simpa using hb
      calc (n : ℚ) < (d : ℚ) * ((2 ^ k.toNat : ℕ) : ℚ) := by exact_mod_cast h2
        _ = ((2 ^ k.toNat : ℕ) : ℚ) * (d : ℚ) := by ring
    · intro hb
      have h2 : (n : ℚ) < (d : ℚ) * ((2 ^ k.toNat : ℕ) : ℚ) := by linarith
      have h3 : n < d * 2 ^ k.toNat := by exact_mod_cast h2
      simpa using h3
  · rw [if_neg hk]
    have hknn : (0 : Int) ≤ -k := by omega
    have h2 : (2 : ℚ) ^ k = 1 / ((2 ^ (-k).toNat : ℕ) : ℚ) := by
      rw [qpow_toNat _ hknn, one_div, ← zpow_neg]
      congr 1
      omega
    have hpq : (0 : ℚ) < ((2 ^ (-k).toNat : ℕ) : ℚ) := by positivity
    rw [h2, div_lt_div_iff₀ hdq hpq]
    constructor
    · intro hb
      have h3 : n * 2 ^ (-k).toNat < d := by simpa using hb
      calc (n : ℚ) * ((2 ^ (-k).toNat : ℕ) : ℚ) < (d : ℚ) := by exact_mod_cast h3
        _ = 1 * (d : ℚ) := by ring
    · intro hb
      have h3 : (n : ℚ) * ((2 ^ (-k).toNat : ℕ) : ℚ) < (d : ℚ) := by linarith
      have h4 : n * 2 ^ (-k).toNat < d := by exact_mod_cast h3
      simpa using h4

theorem natCast_pow_q (a : Nat) : ((2 ^ a : ℕ) : ℚ) = (2 : ℚ) ^ (a : Int) := by
  push_cast
  rw [← zpow_natCast (2 : ℚ) a]

theorem floorLog2Frac_eq (n d : Nat) (hn : 1 ≤ n) (hd : 1 ≤ d)
    (hn2 : n ≤ 2 ^ 2000) (hd2 : d ≤ 2 ^ 2000) (e : Int)
    (hlow : (2 : ℚ) ^ e ≤ (n : ℚ) / (d : ℚ))
    (hhigh : (n : ℚ) / (d : ℚ) < (2 : ℚ) ^ (e + 1)) :
    floorLog2Frac n d = e := by
  have hdq : (0 : ℚ) < (d : ℚ) := by
    exact_mod_cast Nat.lt_of_lt_of_le Nat.zero_lt_one hd
  obtain ⟨hn_lo, hn_hi⟩ := natLog2_spec n hn hn2
  obtain ⟨hd_lo, hd_hi⟩ := natLog2_spec d hd hd2
  set Ln := natLog2 n with hLn
  set Ld := natLog2 d with hLd
  set g : Int := (Ln : Int) - (Ld : Int) with hg
  have hq_lo : (2 : ℚ) ^ (g - 1) < (n : ℚ) / (d : ℚ) := by
    rw [hg, show (Ln : Int) - (Ld : Int) - 1 = (Ln : Int) - ((Ld : Int) + 1) by ring,
      zpow_sub₀ (by norm_num)]
    rw [div_lt_div_iff₀ (by positivity) hdq]
    calc (2 : ℚ) ^ ((Ln : Int)) * (d : ℚ)
        < (2 : ℚ) ^ ((Ln : Int)) * (2 : ℚ) ^ ((Ld : Int) + 1) := by
          have hdlt : (d : ℚ) < (2 : ℚ) ^ ((Ld : Int) + 1) := by
            rw [show ((Ld : Int) + 1) = ((Ld + 1 : ℕ) : Int) by push_cast; ring,
              ← natCast_pow_q]
            exact_mod_cast hd_hi
          have hpos : (0 : ℚ) < (2 : ℚ) ^ ((Ln : Int)) := by positivity
          exact mul_lt_mul_of_pos_left hdlt hpos
      _ ≤ (n : ℚ) * (2 : ℚ) ^ ((Ld : Int) + 1) := by
          have hnle : (2 : ℚ) ^ ((Ln : Int)) ≤ (n : ℚ) := by
            rw [← natCast_pow_q]
            exact_mod_cast hn_lo
          have hpos : (0 : ℚ) < (2 : ℚ) ^ ((Ld : Int) + 1) := by positivity
          exact mul_le_mul_of_nonneg_right hnle (le_of_lt hpos)
  have hq_hi : (n : ℚ) / (d : ℚ) < (2 : ℚ) ^ (g + 1) := by
    rw [hg, show (Ln : Int) - (Ld : Int) + 1 = ((Ln : Int) + 1) - (Ld : Int) by ring,
      zpow_sub₀ (by norm_num)]
    rw [div_lt_div_iff₀ hdq (by positivity)]
    calc (n : ℚ) * (2 : ℚ) ^ ((Ld : Int))
        ≤ (n : ℚ) * (d : ℚ) := by
          have hdge : (2 : ℚ) ^ ((Ld : Int)) ≤ (d : ℚ) := by
            rw [← natCast_pow_q]
            exact_mod_cast hd_lo
          have hpos : (0 : ℚ) ≤ (n : ℚ) := by positivity
          exact mul_le_mul_of_nonneg_left hdge hpos
      _ < (2 : ℚ) ^ ((Ln : Int) + 1) * (d : ℚ) := by
          have hnlt : (n : ℚ) < (2 : ℚ) ^ ((Ln : Int) + 1) := by
            rw [show ((Ln : Int) + 1) = ((Ln + 1 : ℕ) : Int) by push_cast; ring,
              ← natCast_pow_q]
            exact_mod_cast hn_hi
          exact mul_lt_mul_of_pos_right hnlt hdq
  rw [floorLog2Frac]
  by_cases hb : ltPow2 n d g
  · rw [if_pos hb]
    have hlt : (n : ℚ) / (d : ℚ) < (2 : ℚ) ^ g := (ltPow2_iff n d hd g).1 hb
    have h1 : e < g := by
      rw [← zpow_lt_zpow_iff_right₀ (show (1:ℚ) < 2 by norm_num)]
      exact lt_of_le_of_lt hlow hlt
    have h2 : g - 1 < e + 1 := by
      rw [← zpow_lt_zpow_iff_right₀ (show (1:ℚ) < 2 by norm_num)]
      exact lt_trans hq_lo hhigh
    omega
  · rw [if_neg hb]
    have hge : (2 : ℚ) ^ g ≤ (n : ℚ) / (d : ℚ) := by
      by_contra hcon
      exact hb ((ltPow2_iff n d hd g).2 (lt_of_not_le hcon))
    have h1 : g < e + 1 := by
      rw [← zpow_lt_zpow_iff_right₀ (show (1:ℚ) < 2 by norm_num)]
      exact lt_of_le_of_lt hge hhigh
    have h2 : e < g + 1 := by
      rw [← zpow_lt_zpow_iff_right₀ (show (1:ℚ) < 2 by norm_num)]
      exact lt_of_le_of_lt hlow hq_hi
    omega

theorem roundHalfEvenFrac_exact (M d : Int) (hd : 0 < d) :
    roundHalfEvenFrac (d * M) d = M := by
  have hf : (d * M).fdiv d = M := Int.mul_fdiv_cancel_left M (ne_of_gt hd)
  simp only [roundHalfEvenFrac, hf]
  have hr : d * M - M * d = 0 := by ring
  rw [hr]
  simp [hd]

theorem roundScaled_exact (q : ℚ) (sh : Int) (M : Nat)
    (habs : |q| * (2 : ℚ) ^ sh = (M : ℚ)) : roundScaled q sh = M := by
  have hden : (0 : ℚ) < (q.den : ℚ) := by
    exact_mod_cast q.pos
  rw [abs_ratio, div_mul_eq_mul_div, div_eq_iff (ne_of_gt hden)] at habs
  rw [roundScaled]
  by_cases hsh : 0 ≤ sh
  · rw [if_pos hsh]
    have h2 : (q.num.natAbs : ℚ) * ((2 ^ sh.toNat : ℕ) : ℚ) =
        (q.den : ℚ) * (M : ℚ) := by
      rw [qpow_toNat sh hsh]
      linarith
    have key : (q.num.natAbs : Int) * 2 ^ sh.toNat = (q.den : Int) * (M : Int) := by
      exact_mod_cast h2
    rw [key, roundHalfEvenFrac_exact _ _ (by exact_mod_cast q.pos), Int.toNat_natCast]
  · rw [if_neg hsh]
    have h3 : (2 : ℚ) ^ sh * (2 : ℚ) ^ (-sh) = 1 := by
      rw [← zpow_add₀ (by norm_num : (2 : ℚ) ≠ 0)]
      simp
    have h4 := congrArg (fun z => z * (2 : ℚ) ^ (-sh)) habs
    simp only at h4
    rw [mul_assoc, h3, mul_one] at h4
    have h5 : (q.num.natAbs : ℚ) =
        ((q.den : ℚ) * ((2 ^ (-sh).toNat : ℕ) : ℚ)) * (M : ℚ) := by
      rw [qpow_toNat (-sh) (by omega)]
      calc (q.num.natAbs : ℚ) = (M : ℚ) * (q.den : ℚ) * (2 : ℚ) ^ (-sh) := h4
        _ = ((q.den : ℚ) * (2 : ℚ) ^ (-sh)) * (M : ℚ) := by ring
    have key : (q.num.natAbs : Int) = ((q.den : Int) * 2 ^ (-sh).toNat) * (M : Int) := by
      exact_mod_cast h5
    rw [key, roundHalfEvenFrac_exact _ _ (by positivity), Int.toNat_natCast]

theorem ratToF32Bits_lt (q : ℚ) : ratToF32Bits q < 2 ^ 32 := by
  by_cases h0 : q = 0
  · simp [ratToF32Bits, h0]
  · simp only [ratToF32Bits, if_neg h0]
    have hs1 : (if q < 0 then (1 : Nat) else 0) ≤ 1 := by
      split_ifs <;> omega
    set s : Nat := if q < 0 then 1 else 0 with hs
    set e : Int := floorLog2Frac q.num.natAbs q.den with he
    by_cases he1 : e < -126
    · rw [if_pos he1]
      by_cases hk : roundScaled q 149 < 2 ^ 23
      · rw [if_pos hk]
        omega
      · rw [if_neg hk]
        omega
    · rw [if_neg he1]
      by_cases he2 : 127 < e
      · rw [if_pos he2]
        omega
      · rw [if_neg he2]
        by_cases hm : roundScaled q (23 - e) < 2 ^ 24
        · rw [if_pos hm]
          have ht : (e + 127).toNat ≤ 254 := by omega
          omega
        · rw [if_neg hm]
          by_cases he3 : e = 127
          · rw [if_pos he3]
            omega
          · rw [if_neg he3]
            have ht : (e + 128).toNat ≤ 254 := by omega
            omega

theorem dyadic_abs (n : Int) (k : Nat) :
    |dyadic n k| = (n.natAbs : ℚ) / ((2 ^ k : ℕ) : ℚ) := by
  rw [dyadic, Rat.mkRat_eq_div, abs_div, abs_of_nonneg (show (0:ℚ) ≤ ((2^k : ℕ) : ℚ) by positivity)]
  congr 1
  rw [Int.cast_natAbs, Int.cast_abs]

theorem dyadic_ne_zero (n : Int) (k : Nat) (hn : n ≠ 0) : dyadic n k ≠ 0 := by
  rw [dyadic, Rat.mkRat_eq_div]
  apply div_ne_zero
  · exact_mod_cast hn
  · positivity

theorem dyadic_neg_iff (n : Int) (k : Nat) : dyadic n k < 0 ↔ n < 0 := by
  rw [dyadic, Rat.mkRat_eq_div]
  have hb : (0 : ℚ) < ((2 ^ k : ℕ) : ℚ) := by positivity
  constructor
  · intro h
    by_contra hn
    push_neg at hn
    have : (0 : ℚ) ≤ (n : ℚ) / ((2 ^ k : ℕ) : ℚ) :=
      div_nonneg (by exact_mod_cast hn) (le_of_lt hb)
    linarith
  · intro h
    exact div_neg_of_neg_of_pos (by exact_mod_cast h) hb

theorem floor_of_abs (q : ℚ) (N K : Nat) (hN : 1 ≤ N) (hN2 : N ≤ 2 ^ 300)
    (hK : K ≤ 300) (habs : |q| = (N : ℚ) / ((2 ^ K : ℕ) : ℚ)) (e0 : Int)
    (hlow : (2 : ℚ) ^ e0 ≤ (N : ℚ) / ((2 ^ K : ℕ) : ℚ))
    (hhigh : (N : ℚ) / ((2 ^ K : ℕ) : ℚ) < (2 : ℚ) ^ (e0 + 1)) :
    floorLog2Frac q.num.natAbs q.den = e0 := by
  have hq0 : q ≠ 0 := by
    intro h
    rw [h] at habs
    simp only [abs_zero] at habs
    have h2 : (N : ℚ) = 0 := by
      have hpos : (0 : ℚ) < ((2 ^ K : ℕ) : ℚ) := by positivity
      field_simp at habs
      exact habs.symm
    have : N = 0 := by exact_mod_cast h2
    omega
  have hn1 : 1 ≤ q.num.natAbs := Int.natAbs_pos.2 (Rat.num_ne_zero.2 hq0)
  have hd1 : 1 ≤ q.den := q.pos
  have hratio : (q.num.natAbs : ℚ) / (q.den : ℚ) = (N : ℚ) / ((2 ^ K : ℕ) : ℚ) := by
    rw [← abs_ratio, habs]
  have hcross : q.num.natAbs * 2 ^ K = N * q.den := by
    have h1 : (q.num.natAbs : ℚ) * ((2 ^ K : ℕ) : ℚ) = (N : ℚ) * (q.den : ℚ) := by
      rw [div_eq_div_iff (by positivity) (by positivity)] at hratio
      exact hratio
    exact_mod_cast h1
  have hden_le : q.den ≤ 2 ^ K := by
    have h2 : q.den ∣ q.num.natAbs * 2 ^ K := ⟨N, by rw [hcross, Nat.mul_comm]⟩
    exact Nat.le_of_dvd (by positivity)
      (Nat.Coprime.dvd_of_dvd_mul_left q.reduced.symm h2)
  have hnum_le : q.num.natAbs ≤ N := by
    have h2 : q.num.natAbs ∣ N * q.den := ⟨2 ^ K, hcross.symm⟩
    exact Nat.le_of_dvd (by omega)
      (Nat.Coprime.dvd_of_dvd_mul_right q.reduced h2)
  have hb1 : q.num.natAbs ≤ 2 ^ 2000 := le_trans hnum_le (le_trans hN2 (by norm_num))
  have hb2 : q.den ≤ 2 ^ 2000 :=
    le_trans hden_le (Nat.pow_le_pow_right (by norm_num) (le_trans hK (by norm_num)))
  apply floorLog2Frac_eq _ _ hn1 hd1 hb1 hb2
  · rw [hratio]
    exact hlow
  · rw [hratio]
    exact hhigh

theorem floor_dyadic (q : ℚ) (N a : Nat) (hN1 : 1 ≤ N) (ha : a ≤ 280)
    (hNlo : 2 ^ a ≤ N) (hNhi : N < 2 ^ (a + 1))
    (habs : |q| = (N : ℚ) / ((2 ^ 149 : ℕ) : ℚ)) :
    floorLog2Frac q.num.natAbs q.den = (a : Int) - 149 := by
  have hN2 : N ≤ 2 ^ 300 := by
    have h1 : 2 ^ (a + 1) ≤ 2 ^ 300 :=
      Nat.pow_le_pow_right (by norm_num) (by omega)
    omega
  apply floor_of_abs q N 149 hN1 hN2 (by norm_num) habs
  · rw [zpow_sub₀ (by norm_num), natCast_pow_q 149]
    gcongr
    rw [← natCast_pow_q a]
    exact_mod_cast hNlo
  · rw [show ((a : Int) - 149) + 1 = ((a + 1 : ℕ) : Int) - 149 by push_cast; ring,
      zpow_sub₀ (by norm_num), natCast_pow_q 149]
    gcongr
    rw [← natCast_pow_q (a + 1)]
    exact_mod_cast hNhi

theorem sign_bit_eq (q : ℚ) (s : Nat) (n : Nat) (k : Nat) (hs : s ≤ 1) (hn : 1 ≤ n)
    (hq : q = dyadic ((if s = 1 then -1 else 1) * (n : Int)) k) :
    (if q < 0 then (1 : Nat) else 0) = s := by
  by_cases h1 : s = 1
  · rw [if_pos ?hneg]
    · omega
    case hneg =>
      rw [hq, dyadic_neg_iff, h1, if_pos rfl]
      have : (0 : Int) < (n : Int) := by exact_mod_cast hn
      omega
  · rw [if_neg ?hpos]
    · omega
    case hpos =>
      rw [hq, dyadic_neg_iff, if_neg h1]
      have : (0 : Int) ≤ (n : Int) := by positivity
      omega

/-- The binary32 encoder is exact on representable values: decoding any
finite bit pattern and re-encoding the resulting value restores a pattern
with the same value. -/
theorem f32_recovery (q : ℚ) (hx : F32Exact q) :
    f32BitsToJSNum (ratToF32Bits q) = JSNum.num q := by
  obtain ⟨bits, hb32, hexne, hdec⟩ := hx
  simp only [f32BitsToJSNum] at hdec
  set s : Nat := bits / 2 ^ 31 % 2 with hs
  set ex : Nat := bits / 2 ^ 23 % 2 ^ 8 with hex
  set m : Nat := bits % 2 ^ 23 with hm
  have hs1 : s ≤ 1 := by omega
  have hex254 : ex ≤ 254 := by
    have h1 : ex < 2 ^ 8 := by
      rw [hex]
      exact Nat.mod_lt _ (by norm_num)
    omega
  have hm23 : m < 2 ^ 23 := by
    rw [hm]
    exact Nat.mod_lt _ (by norm_num)
  have hE : ((2 ^ 149 : ℕ) : ℚ) = (2 : ℚ) ^ (149 : ℤ) := by
    rw [natCast_pow_q 149]
    norm_cast
  rw [if_neg hexne] at hdec
  by_cases hex0 : ex = 0
  · rw [if_pos hex0] at hdec
    have hqv : q = dyadic ((if s = 1 then -1 else 1) * (m : Int)) 149 :=
      ((JSNum.num.injEq _ _).mp hdec).symm
    by_cases hm0 : m = 0
    · have hq0 : q = 0 := by
        rw [hqv, hm0]
        simp [dyadic]
      rw [hq0]
      rw [show ratToF32Bits 0 = 0 from by simp [ratToF32Bits]]
      decide
    · have hm1 : 1 ≤ m := by omega
      have hnum_ne : (if s = 1 then (-1 : Int) else 1) * (m : Int) ≠ 0 := by
        apply mul_ne_zero
        · split_ifs <;> omega
        · exact_mod_cast hm0
      have hqne : q ≠ 0 := by
        rw [hqv]
        exact dyadic_ne_zero _ _ hnum_ne
      have hnatAbs : ((if s = 1 then (-1 : Int) else 1) * (m : Int)).natAbs = m := by
        rw [Int.natAbs_mul]
        have h1 : (if s = 1 then (-1 : Int) else 1).natAbs = 1 := by
          split_ifs <;> rfl
        rw [h1, one_mul, Int.natAbs_ofNat]
      have habs : |q| = ((m : ℕ) : ℚ) / ((2 ^ 149 : ℕ) : ℚ) := by
        rw [hqv, dyadic_abs, hnatAbs]
      obtain ⟨hLlo, hLhi⟩ :=
        natLog2_spec m hm1 (le_trans (le_of_lt hm23) (by norm_num))
      set Lm : Nat := natLog2 m with hLm
      have hLm22 : Lm ≤ 22 := by
        have h1 : 2 ^ Lm < 2 ^ 23 := lt_of_le_of_lt hLlo hm23
        have h2 := (Nat.pow_lt_pow_iff_right (by norm_num : 1 < 2)).1 h1
        omega
      have he : floorLog2Frac q.num.natAbs q.den = (Lm : Int) - 149 :=
        floor_dyadic q m Lm hm1 (by omega) hLlo hLhi habs
      have hround : roundScaled q 149 = m := by
        apply roundScaled_exact
        rw [habs, hE]
        exact div_mul_cancel₀ _ (by positivity)
      have hsign : (if q < 0 then (1 : ℕ) else 0) = s :=
        sign_bit_eq q s m 149 hs1 hm1 hqv
      simp only [ratToF32Bits, if_neg hqne]
      rw [hsign, he]
      rw [if_pos (show (Lm : Int) - 149 < -126 by omega)]
      rw [hround, if_pos hm23]
      simp only [f32BitsToJSNum]
      have h1 : (s * 2 ^ 31 + m) / 2 ^ 31 % 2 = s := by omega
      have h2 : (s * 2 ^ 31 + m) / 2 ^ 23 % 2 ^ 8 = 0 := by omega
      have h3 : (s * 2 ^ 31 + m) % 2 ^ 23 = m := by omega
      rw [h1, h2, h3]
      rw [if_neg (by norm_num), if_pos rfl, ← hqv]
  · -- normal case: 1 ≤ ex ≤ 254
    have hex1 : 1 ≤ ex := by omega
    rw [if_neg hex0] at hdec
    have hqv : q = dyadic ((if s = 1 then -1 else 1) *
        ((2 ^ 23 + m : ℕ) : Int) * (2 : Int) ^ (ex - 1)) 149 :=
      ((JSNum.num.injEq _ _).mp hdec).symm
    set M : Nat := 2 ^ 23 + m with hM
    have hM1 : 2 ^ 23 ≤ M := by omega
    have hM2 : M < 2 ^ 24 := by omega
    set N : Nat := M * 2 ^ (ex - 1) with hN
    have hN1 : 1 ≤ N := by
      have : 1 ≤ 2 ^ (ex - 1) := Nat.one_le_two_pow
      have : 1 * 1 ≤ M * 2 ^ (ex - 1) := Nat.mul_le_mul (by omega) this
      omega
    have hnum_eq : (if s = 1 then (-1 : Int) else 1) * ((M : ℕ) : Int) *
        (2 : Int) ^ (ex - 1) = (if s = 1 then (-1 : Int) else 1) * ((N : ℕ) : Int) := by
      rw [hN]
      push_cast
      ring
    have hqv2 : q = dyadic ((if s = 1 then -1 else 1) * ((N : ℕ) : Int)) 149 := by
      rw [hqv, hnum_eq]
    have hnum_ne : (if s = 1 then (-1 : Int) else 1) * ((N : ℕ) : Int) ≠ 0 := by
      apply mul_ne_zero
      · split_ifs <;> omega
      · exact_mod_cast (by omega : N ≠ 0)
    have hqne : q ≠ 0 := by
      rw [hqv2]
      exact dyadic_ne_zero _ _ hnum_ne
    have hnatAbs : ((if s = 1 then (-1 : Int) else 1) * ((N : ℕ) : Int)).natAbs = N := by
      rw [Int.natAbs_mul]
      have h1 : (if s = 1 then (-1 : Int) else 1).natAbs = 1 := by
        split_ifs <;> rfl
      rw [h1, one_mul, Int.natAbs_ofNat]
    have habs : |q| = ((N : ℕ) : ℚ) / ((2 ^ 149 : ℕ) : ℚ) := by
      rw [hqv2, dyadic_abs, hnatAbs]
    have hNlo : 2 ^ (22 + ex) ≤ N := by
      rw [hN]
      calc 2 ^ (22 + ex) = 2 ^ 23 * 2 ^ (ex - 1) := by
            rw [← pow_add]
            congr 1
            omega
        _ ≤ M * 2 ^ (ex - 1) := Nat.mul_le_mul_right _ hM1
    have hNhi : N < 2 ^ (22 + ex + 1) := by
      rw [hN]
      calc M * 2 ^ (ex - 1) < 2 ^ 24 * 2 ^ (ex - 1) :=
            (Nat.mul_lt_mul_right (Nat.pos_pow_of_pos _ (by norm_num))).2 hM2
        _ = 2 ^ (22 + ex + 1) := by
            rw [← pow_add]
            congr 1
            omega
    have he : floorLog2Frac q.num.natAbs q.den = ((22 + ex : ℕ) : Int) - 149 :=
      floor_dyadic q N (22 + ex) hN1 (by omega) hNlo hNhi habs
    have he' : floorLog2Frac q.num.natAbs q.den = (ex : Int) - 127 := by
      rw [he]
      push_cast
      ring
    have hround : roundScaled q (23 - ((ex : Int) - 127)) = M := by
      apply roundScaled_exact
      rw [habs, hE]
      have hNQ : ((N : ℕ) : ℚ) = (M : ℚ) * (2 : ℚ) ^ ((ex : Int) - 1) := by
        rw [hN]
        push_cast
        congr 1
        rw [← zpow_natCast (2 : ℚ) (ex - 1)]
        congr 1
        omega
      rw [hNQ]
      rw [div_mul_eq_mul_div, div_eq_iff (by positivity)]
      rw [mul_assoc, ← zpow_add₀ (by norm_num : (2 : ℚ) ≠ 0)]
      rw [show ((ex : Int) - 1) + (23 - ((ex : Int) - 127)) = 149 by ring]
    have hsign : (if q < 0 then (1 : ℕ) else 0) = s :=
      sign_bit_eq q s N 149 hs1 hN1 hqv2
    simp only [ratToF32Bits, if_neg hqne]
    rw [hsign, he']
    rw [if_neg (show ¬((ex : Int) - 127 < -126) by omega)]
    rw [if_neg (show ¬(127 < (ex : Int) - 127) by omega)]
    rw [hround, if_pos (show M < 2 ^ 24 from hM2)]
    have htoNat : ((ex : Int) - 127 + 127).toNat = ex := by omega
    rw [htoNat]
    simp only [f32BitsToJSNum]
    have hsm : M - 2 ^ 23 = m := by omega
    rw [hsm]
    have h1 : (s * 2 ^ 31 + ex * 2 ^ 23 + m) / 2 ^ 31 % 2 = s := by omega
    have h2 : (s * 2 ^ 31 + ex * 2 ^ 23 + m) / 2 ^ 23 % 2 ^ 8 = ex := by omega
    have h3 : (s * 2 ^ 31 + ex * 2 ^ 23 + m) % 2 ^ 23 = m := by omega
    rw [h1, h2, h3]
    rw [if_neg hexne, if_neg hex0, ← hqv]

theorem toUintBits_nat (bits : Nat) (k : Nat) (hk : k < 2 ^ bits) :
    toUintBits bits (some (.num (k : ℚ))) = k := by
  simp only [toUintBits, jsTrunc]
  rw [Rat.num_natCast, Rat.den_natCast]
  have ht : Int.tdiv (k : Int) ((1 : ℕ) : Int) = (k : Int) := by
    rw [show ((1 : ℕ) : Int) = 1 by norm_num, Int.tdiv_one]
  rw [ht]
  show (((k : ℤ) % ((2 : ℤ) ^ bits)).toNat = k)
  rw [Int.emod_eq_of_lt (by positivity) (by exact_mod_cast hk)]
  exact Int.toNat_natCast k

theorem uint_enc_dec (le : Bool) (w bits : Nat) (k : Nat)
    (hw : bits = 8 * w) (hk : k < 2 ^ bits) :
    bytesToNatLE (orderBytes le (orderBytes le
      (natToBytesLE w (toUintBits bits (some (.num (k : ℚ))))))) = k := by
  rw [orderBytes_orderBytes, toUintBits_nat bits k hk,
    bytesToNatLE_natToBytesLE w k]
  subst hw
  calc k < 2 ^ (8 * w) := hk
    _ = 256 ^ w := by rw [pow_mul]; norm_num

theorem decode_encode_exact (le : Bool) (t : FieldType) (v : JSNum)
    (h : ValueOk t v) : decodeBytes le t (encBytes le t (some v)) = v := by
  cases t with
  | uint8 =>
    obtain ⟨k, hk, hv⟩ := h
    subst hv
    show JSNum.num ((bytesToNatLE [toUintBits 8 (some (.num (k : ℚ)))] : ℕ) : ℚ) = _
    rw [show bytesToNatLE [toUintBits 8 (some (.num (k : ℚ)))] =
        toUintBits 8 (some (.num (k : ℚ))) from by
      simp [bytesToNatLE]]
    rw [toUintBits_nat 8 k hk]
  | uint16 =>
    obtain ⟨k, hk, hv⟩ := h
    subst hv
    show JSNum.num ((bytesToNatLE (orderBytes le (orderBytes le
      (natToBytesLE 2 (toUintBits 16 (some (.num (k : ℚ))))))) : ℕ) : ℚ) = _
    rw [uint_enc_dec le 2 16 k (by norm_num) hk]
  | uint32 =>
    obtain ⟨k, hk, hv⟩ := h
    subst hv
    show JSNum.num ((bytesToNatLE (orderBytes le (orderBytes le
      (natToBytesLE 4 (toUintBits 32 (some (.num (k : ℚ))))))) : ℕ) : ℚ) = _
    rw [uint_enc_dec le 4 32 k (by norm_num) hk]
  | float32 =>
    obtain ⟨qv, hqx, hv⟩ := h
    subst hv
    show f32BitsToJSNum (bytesToNatLE (orderBytes le (orderBytes le
      (natToBytesLE 4 (ratToF32Bits qv))))) = _
    rw [orderBytes_orderBytes, bytesToNatLE_natToBytesLE 4 _
      (by have := ratToF32Bits_lt qv; norm_num at this ⊢; omega)]
    exact f32_recovery qv hqx

theorem jsSet_fresh (r : RecordJS) (k : String) (v : JSNum)
    (h : ∀ p ∈ r, p.1 ≠ k) : jsSet r k v = r ++ [(k, v)] := by
  have hany : r.any (fun p => p.1 == k) = false := by
    simp only [List.any_eq_false]
    intro p hp
    simpa using h p hp
  simp [jsSet, hany]

theorem fold_layout_record (ds : List (String × FieldType)) :
    ∀ (base : Nat) (g : String × FieldType × Nat → JSNum) (r0 : RecordJS),
      (ds.map Prod.fst).Nodup →
      (∀ p ∈ r0, p.1 ∉ ds.map Prod.fst) →
      (layoutFrom base ds).foldl (fun r x => jsSet r x.1 (g x)) r0 =
        r0 ++ (layoutFrom base ds).map fun x => (x.1, g x) := by
  induction ds with
  | nil => intro base g r0 _ _; simp [layoutFrom]
  | cons d ds ih =>
    intro base g r0 hnd hfresh
    rw [List.map_cons, List.nodup_cons] at hnd
    simp only [layoutFrom, List.foldl_cons, List.map_cons]
    have hstep : jsSet r0 d.1 (g (d.1, d.2, base)) = r0 ++ [(d.1, g (d.1, d.2, base))] := by
      apply jsSet_fresh
      intro p hp
      have := hfresh p hp
      simp only [List.map_cons, List.mem_cons] at this
      tauto
    rw [hstep, ih (base + width d.2) g _ hnd.2]
    · simp
    · intro p hp
      rcases List.mem_append.1 hp with hp | hp
      · have := hfresh p hp
        simp only [List.map_cons, List.mem_cons] at this
        tauto
      · simp only [List.mem_singleton] at hp
        subst hp
        exact hnd.1

theorem jsGet_layout_list (ds : List (String × FieldType)) :
    ∀ (base : Nat) (g : String × FieldType × Nat → JSNum) (n : String) (t : FieldType),
      (ds.map Prod.fst).Nodup → (n, t) ∈ ds →
      ∃ off, (n, t, off) ∈ layoutFrom base ds ∧
        jsGet ((layoutFrom base ds).map fun x => (x.1, g x)) n =
          some (g (n, t, off)) := by
  induction ds with
  | nil => intro base g n t _ hmem; cases hmem
  | cons d ds ih =>
    intro base g n t hnd hmem
    rw [List.map_cons, List.nodup_cons] at hnd
    simp only [layoutFrom, List.map_cons]
    rcases List.mem_cons.1 hmem with hmem | hmem
    · have hn : d.1 = n := by rw [← hmem]
      have ht : d.2 = t := by rw [← hmem]
      refine ⟨base, ?_, ?_⟩
      · rw [← hmem]
        simp
      · rw [jsGet]
        rw [List.find?_cons_of_pos _ (by simpa using hn)]
        simp only [Option.map_some']
        rw [← hmem]
    · have hne : d.1 ≠ n := by
        intro hcon
        apply hnd.1
        rw [hcon]
        exact List.mem_map_of_mem Prod.fst hmem
      rcases ih (base + width d.2) g n t hnd.2 hmem with ⟨off, hoff, hget⟩
      refine ⟨off, by simp [hoff], ?_⟩
      rw [jsGet]
      rw [List.find?_cons_of_neg _ (by simpa using hne)]
      exact hget

/-! C4: encode/decode round-trip -/

/-- The decode of an encode over a duplicate-free layout, for a record
supplying an admissible value for every field. -/
theorem roundtrip_core (le : Bool) (decls : List (String × FieldType))
    (r : RecordJS) (hnd : (decls.map Prod.fst).Nodup)
    (hcomp : ∀ d ∈ decls, ∃ v, jsGet r d.1 = some v ∧ ValueOk d.2 v) :
    ∃ out rec,
      writeV2Over (sumWidths decls) ((layoutFrom 0 decls).map (fieldV2Of le)) r none =
          some out ∧
      readV2Over ((layoutFrom 0 decls).map (fieldV2Of le)) out = some rec ∧
      ∀ d ∈ decls, jsGet rec d.1 = jsGet r d.1 := by
  set Fl : Buf :=
    ((layoutFrom 0 decls).map fun x => encBytes le x.2.1 (jsGet r x.1)).flatten with hFl
  have hwrite : writeV2Over (sumWidths decls)
      ((layoutFrom 0 decls).map (fieldV2Of le)) r none = some Fl := by
    rw [writeV2Over_unfold]
    exact writeV2_layout_fresh le decls r
  have hread := readV2_layout decls le
    (fun n t => encBytes le t (jsGet r n)) 0 Fl [] []
    (fun n t => encBytes_length le t (jsGet r n))
    (by rw [List.drop_zero, List.append_nil, hFl])
  have hread2 : readV2Over ((layoutFrom 0 decls).map (fieldV2Of le)) Fl =
      some ((layoutFrom 0 decls).foldl
        (fun r1 x => jsSet r1 x.1
          (decodeBytes le x.2.1 (encBytes le x.2.1 (jsGet r x.1)))) []) := by
    simpa using hread
  refine ⟨Fl, _, hwrite, hread2, ?_⟩
  intro d hd
  obtain ⟨v, hv, hok⟩ := hcomp d hd
  rw [fold_layout_record decls 0
    (fun x => decodeBytes le x.2.1 (encBytes le x.2.1 (jsGet r x.1))) [] hnd
    (by intro p hp; cases hp), List.nil_append]
  obtain ⟨off, _, hget⟩ := jsGet_layout_list decls 0
    (fun x => decodeBytes le x.2.1 (encBytes le x.2.1 (jsGet r x.1))) d.1 d.2 hnd
    (by rcases d with ⟨n, t⟩; exact hd)
  rw [hget]
  simp only
  rw [hv]
  rw [decode_encode_exact le d.2 v hok]

/-- C4: for every duplicate-free layout and every record holding, for each
field, a natural number within the field's unsigned range (integer fields)
or an exactly-representable binary32 value (`float32` fields), decoding the
encoding returns a record that agrees with the input on every declared
field — for both builders. -/
theorem c4_roundtrip (le : Bool) (decls : List (String × FieldType))
    (r : RecordJS) (hnd : (decls.map Prod.fst).Nodup)
    (hcomp : ∀ d ∈ decls, ∃ v, jsGet r d.1 = some v ∧ ValueOk d.2 v) :
    (∃ out rec, (mkStateV2 le decls).build.write r none = some out ∧
      (mkStateV2 le decls).build.read out = some rec ∧
      ∀ d ∈ decls, jsGet rec d.1 = jsGet r d.1) ∧
    ∀ c, (mkStateV1 le decls).build = some c →
      ∃ out rec, c.write r none = some out ∧ c.read out = some rec ∧
        ∀ d ∈ decls, jsGet rec d.1 = jsGet r d.1 := by
  obtain ⟨out, rec, hw, hr, hagree⟩ := roundtrip_core le decls r hnd hcomp
  constructor
  · refine ⟨out, rec, ?_, ?_, hagree⟩
    · rw [buildV2_mk]
      exact hw
    · rw [buildV2_mk]
      exact hr
  · intro c hc
    have hceq := buildV1_mk_inv le decls hnd c hc
    subst hceq
    refine ⟨out, rec, ?_, ?_, hagree⟩
    · show runWriteV1 _ _ _ r none = some out
      rw [runWriteV1_eq]
      exact hw
    · show runReadV1 _ _ out = some rec
      rw [runReadV1_eq]
      exact hr

/-- Witness for C4 on the layout `a:uint8, b:float32` with `a = 7`,
`b = 1.5`. -/
theorem c4_roundtrip_witness :
    (([("a", FieldType.uint8), ("b", FieldType.float32)].map Prod.fst).Nodup) ∧
    (∀ d ∈ [("a", FieldType.uint8), ("b", FieldType.float32)],
      ∃ v, jsGet [("a", JSNum.num ((7 : ℕ) : ℚ)), ("b", JSNum.num (mkRat 3 2))] d.1 =
          some v ∧ ValueOk d.2 v) ∧
    ((∃ out rec,
        (mkStateV2 true [("a", FieldType.uint8), ("b", FieldType.float32)]).build.write
            [("a", JSNum.num ((7 : ℕ) : ℚ)), ("b", JSNum.num (mkRat 3 2))] none = some out ∧
        (mkStateV2 true [("a", FieldType.uint8), ("b", FieldType.float32)]).build.read out =
            some rec ∧
        ∀ d ∈ [("a", FieldType.uint8), ("b", FieldType.float32)],
          jsGet rec d.1 =
            jsGet [("a", JSNum.num ((7 : ℕ) : ℚ)), ("b", JSNum.num (mkRat 3 2))] d.1) ∧
      ∀ c, (mkStateV1 true [("a", FieldType.uint8), ("b", FieldType.float32)]).build =
          some c →
        ∃ out rec, c.write [("a", JSNum.num ((7 : ℕ) : ℚ)), ("b", JSNum.num (mkRat 3 2))]
              none = some out ∧
          c.read out = some rec ∧
          ∀ d ∈ [("a", FieldType.uint8), ("b", FieldType.float32)],
            jsGet rec d.1 =
              jsGet [("a", JSNum.num ((7 : ℕ) : ℚ)), ("b", JSNum.num (mkRat 3 2))] d.1) := by
  have hcomp : ∀ d ∈ [("a", FieldType.uint8), ("b", FieldType.float32)],
      ∃ v, jsGet [("a", JSNum.num ((7 : ℕ) : ℚ)), ("b", JSNum.num (mkRat 3 2))] d.1 =
        some v ∧ ValueOk d.2 v := by
    intro d hd
    rcases List.mem_cons.1 hd with hd | hd
    · subst hd
      exact ⟨JSNum.num ((7 : ℕ) : ℚ), by decide, 7, by decide, rfl⟩
    · rcases List.mem_cons.1 hd with hd | hd
      · subst hd
        refine ⟨JSNum.num (mkRat 3 2), by decide, mkRat 3 2, ⟨0x3FC00000, ?_, ?_, ?_⟩, rfl⟩
        · decide
        · decide
        · decide
      · cases hd
  exact ⟨by decide, hcomp,
    c4_roundtrip true [("a", .uint8), ("b", .float32)]
      [("a", JSNum.num ((7 : ℕ) : ℚ)), ("b", JSNum.num (mkRat 3 2))] (by decide) hcomp⟩

end BinStruct
